import Mathlib

/-!
# Verification of the go-4devs/iso8601 duration parser and formatter

Shallow embedding of `duration.go`: the ISO-8601 duration parser
(`ParseDuration`), its digit scanners (`leadingInt`, `leadingFraction`),
the unit resolvers (`sampleUnit` for fixed units, `month`/`year` for
calendar-relative units resolved against a reference instant), and the
formatter (`FormatDuration`).

Modelling conventions:
* Go `uint64` values are `Nat` with explicit `% 2^64` wraparound where the
  source can wrap (`add64`, `sub64`); `time.Duration` (int64) is `Int`
  restricted to the signed 64-bit range, with the `uint64 ↔ int64` bit
  reinterpretations `toUint64` / `toInt64`.
* Go strings are `List Char` (the source only ever treats bytes; all
  grammar-significant bytes are ASCII, where byte = char).
* The calendar-add primitive (`time.Time.AddDate`, `Sub`, `Add`) is the
  externally supplied capability the source calls but does not define; it
  is a `Calendar` structure parameter.  The source's mutable closure
  `d.from` is threaded as an explicit instant value.
* The source computes fractional unit scaling in `float64`
  (`uint64(float64(v) * (float64(unit) / scale))`).  On every input
  exercised below the operands are integers below `2^53` and the scale is
  a power of ten dividing the unit constant, where the float computation
  is exact and equals the exact integer computation `v * unit / scale`
  used here.
* The parser loop is structural recursion on a fuel argument initialised
  to the input length; each iteration consumes at least one character, so
  the fuel never runs out (`Err.oob` also models the Go panic on indexing
  an empty string after a trailing `T`, which likewise cannot occur on the
  inputs of any theorem below).
-/

namespace iso8601

/-- Nanoseconds per second: Go `time.Second`. -/
def NSecond : Nat := 1000000000

/-- Nanoseconds per minute: Go `time.Minute`. -/
def NMinute : Nat := 60 * NSecond

/-- Nanoseconds per hour: Go `time.Hour`. -/
def NHour : Nat := 60 * NMinute

/-- Nanoseconds per day: Go `time.Hour * 24` (the `dateUnit` table entry). -/
def NDay : Nat := 24 * NHour

/-- Go uint64 addition (wraps modulo `2^64`). -/
def add64 (a b : Nat) : Nat := (a + b) % 2^64

/-- Go uint64 subtraction `a - b` (two's complement wraparound). -/
def sub64 (a b : Nat) : Nat := (a + (2^64 - b % 2^64)) % 2^64

/-- Go conversion `uint64(x)` of an int64 value: the bit pattern, i.e. the
value modulo `2^64`. -/
def toUint64 (x : Int) : Nat := (x % (2^64 : Int)).toNat

/-- Go conversion `time.Duration(n)` (int64) of a uint64 value: two's
complement reinterpretation. -/
def toInt64 (n : Nat) : Int :=
  if n % 2^64 < 2^63 then ((n % 2^64 : Nat) : Int)
  else ((n % 2^64 : Nat) : Int) - 2^64

/-- Error kinds of the parser: the sentinel errors declared at the top of
`duration.go` (`ErrInvalidDuration`, `ErrMissingUnit`, `ErrUnknownUnit`,
`ErrOverflow`, `ErrLeadingInt`), plus `oob` for the Go index-out-of-range
panic (input ending right after a `T`) and for fuel exhaustion of the
embedded loop, which is unreachable when the fuel is the input length. -/
inductive Err where
  | invalidDuration
  | missingUnit
  | unknownUnit
  | overflow
  | leadingInt
  | oob
  deriving DecidableEq, Repr

/-- The external calendar capability: `AddDate` (add years/months/days to an
instant), `Sub` (elapsed nanoseconds between instants, as int64) and `Add`
(advance an instant by a nanosecond count), over an abstract instant type. -/
structure Calendar (I : Type) where
  addDate : I → Int → Int → Int → I
  sub : I → I → Int
  add : I → Int → I

/-- Digit test of the parser main loop and scanners: Go
`'0' <= c && c <= '9'`. -/
def isDigitCh (c : Char) : Bool := decide ('0' ≤ c ∧ c ≤ '9')

/-- Accumulator loop of `leadingInt`: consumes leading decimal digits into
`x`, failing with `ErrLeadingInt` when the running value would exceed the
checks `x > 1<<63/10` (before the multiply-add) or `x > 1<<63` (after).
Inside the guards the Go uint64 arithmetic cannot wrap, so plain `Nat`
arithmetic is exact. -/
def leadingIntAux (x : Nat) : List Char → Except Err (Nat × List Char)
  | [] => .ok (x, [])
  | c :: rest =>
    if c < '0' ∨ '9' < c then .ok (x, c :: rest)
    else if 2^63 / 10 < x then .error .leadingInt
    else
      let x1 := x * 10 + (c.toNat - 48)
      if 2^63 < x1 then .error .leadingInt
      else leadingIntAux x1 rest

/-- Go `leadingInt`: consume the leading `[0-9]*` of `s`, overflow-checked. -/
def leadingInt (s : List Char) : Except Err (Nat × List Char) :=
  leadingIntAux 0 s

/-- Accumulator loop of `leadingFraction`: consumes leading decimal digits,
tracking value `x` and `scale`; on overflow it freezes both (the `overflow`
flag) while still consuming the remaining digits.  The Go `scale` is a
`float64` but only ever holds powers of ten up to `10^19`, all exactly
representable, so it is a `Nat` here. -/
def leadingFractionAux (x scale : Nat) (overflow : Bool) :
    List Char → Nat × Nat × List Char
  | [] => (x, scale, [])
  | c :: rest =>
    if c < '0' ∨ '9' < c then (x, scale, c :: rest)
    else if overflow then leadingFractionAux x scale true rest
    else if (2^63 - 1) / 10 < x then leadingFractionAux x scale true rest
    else
      let y := x * 10 + (c.toNat - 48)
      if 2^63 < y then leadingFractionAux x scale true rest
      else leadingFractionAux y (scale * 10) false rest

/-- Go `leadingFraction`: consume the leading `[0-9]*` of `s`, producing the
accumulated value, the power-of-ten scale, and the remainder; never fails. -/
def leadingFraction (s : List Char) : Nat × Nat × List Char :=
  leadingFractionAux 0 1 false s

/-- The `timeUnits` table of `duration.go`: `S`, `M`, `H` with their fixed
nanosecond constants. -/
def timeUnits (name : List Char) : Option Nat :=
  if name = ['S'] then some NSecond
  else if name = ['M'] then some NMinute
  else if name = ['H'] then some NHour
  else none

/-- The `dateUnit` table of `duration.go`: only `D`, worth 24 hours. -/
def dateUnits (name : List Char) : Option Nat :=
  if name = ['D'] then some NDay
  else none

/-- Go `sampleUnits.unit`: resolve a fixed unit.  Unknown names fail with
`ErrMissingUnit` (the source never returns `ErrUnknownUnit`).  The
fractional branch models the source's
`uint64(float64(v) * (float64(unit)/scale))` by the exact `v * unit / scale`
(see the module comment). -/
def sampleUnit (tbl : List Char → Option Nat) (name : List Char)
    (v scale : Nat) : Except Err Nat :=
  match tbl name with
  | none => .error .missingUnit
  | some u =>
    if scale ≠ 0 then
      let v1 := v * u / scale
      if 2^63 < v1 then .error .overflow else .ok v1
    else if 2^63 / u < v then .error .overflow
    else .ok (v * u)

/-- Go `month`: nanoseconds obtained by adding `v` months to the reference
instant (whole case, `scale = 0`), or `v/scale` of one month (fractional
case, modelled exactly as in `sampleUnit`). -/
def month {I : Type} (cal : Calendar I) (i : I) (v scale : Nat) : Nat :=
  if scale = 0 then toUint64 (cal.sub (cal.addDate i 0 (toInt64 v) 0) i)
  else v * toUint64 (cal.sub (cal.addDate i 0 1 0) i) / scale

/-- Go `year`: as `month`, with the year field of `AddDate`. -/
def year {I : Type} (cal : Calendar I) (i : I) (v scale : Nat) : Nat :=
  if scale = 0 then toUint64 (cal.sub (cal.addDate i (toInt64 v) 0 0) i)
  else v * toUint64 (cal.sub (cal.addDate i 1 0 0) i) / scale

/-- Go `duration.unit`: the date/calendar-section resolver.  `D` goes to the
fixed `dateUnit` table; `M`/`Y` resolve against the reference instant and
then advance it by the resolved tick count (the source's
`d.from = func() { return from.Add(time.Duration(out)) }`); anything else
fails with `ErrMissingUnit`. -/
def durationUnit {I : Type} (cal : Calendar I) (frm : I) (name : List Char)
    (v scale : Nat) : Except Err (Nat × I) :=
  match dateUnits name with
  | some _ => (sampleUnit dateUnits name v scale).map (fun out => (out, frm))
  | none =>
    if name = ['M'] ∨ name = ['Y'] then
      let out := if name = ['M'] then month cal frm v scale else year cal frm v scale
      if 2^63 < out then .error .overflow
      else .ok (out, cal.add frm (toInt64 out))
    else .error .missingUnit

/-- Dispatch through the active unit resolver: `timeUnits.unit` after a `T`,
`duration.unit` before (the source's `unit` function variable). -/
def resolveUnit {I : Type} (cal : Calendar I) (inT : Bool) (frm : I)
    (name : List Char) (v scale : Nat) : Except Err (Nat × I) :=
  if inT then (sampleUnit timeUnits name v scale).map (fun out => (out, frm))
  else durationUnit cal frm name v scale

/-- Length of the unit token: Go scans forward to the next digit, `.`
or `T`. -/
def unitLen : List Char → Nat
  | [] => 0
  | c :: cs =>
    if c = '.' ∨ ('0' ≤ c ∧ c ≤ '9') ∨ c = 'T' then 0
    else unitLen cs + 1

/-- Continuation of one loop iteration after the digit scan: find the unit
token (failing with `ErrMissingUnit` when empty), resolve the integer part,
resolve the fractional part when present (`f > 0`), and accumulate into `d`
behind the overflow check `d > 1<<63 - v` (uint64 arithmetic, hence
`sub64`/`add64`). -/
def afterDigits {I : Type} (cal : Calendar I) (d : Nat) (inT : Bool) (frm : I)
    (v f scale : Nat) (s3 : List Char) : Except Err (Nat × Bool × I × List Char) :=
  let i := unitLen s3
  if i = 0 then .error .missingUnit
  else
    let u := s3.take i
    let s4 := s3.drop i
    match resolveUnit cal inT frm u v 0 with
    | .error e => .error e
    | .ok (v1, frm1) =>
      if 0 < f then
        match resolveUnit cal inT frm1 u f scale with
        | .error e => .error e
        | .ok (r, frm2) =>
          let v2 := add64 v1 r
          if sub64 (2^63) v2 < d then .error .overflow
          else .ok (add64 d v2, inT, frm2, s4)
      else
        if sub64 (2^63) v1 < d then .error .overflow
        else .ok (add64 d v1, inT, frm1, s4)

/-- One loop iteration after the optional `T` switch: require a digit or
`.`, scan the integer part (`leadingInt` failures are reported as
`ErrInvalidDuration`, not `ErrLeadingInt`), scan the optional fraction, fail
with `ErrInvalidDuration` when neither consumed a digit, then defer to
`afterDigits`.  The empty input models the Go panic `s[0]` on an input
ending at a `T`. -/
def stepTok {I : Type} (cal : Calendar I) (d : Nat) (inT : Bool) (frm : I) :
    List Char → Except Err (Nat × Bool × I × List Char)
  | [] => .error .oob
  | c1 :: cs1 =>
    if ¬(c1 = '.' ∨ ('0' ≤ c1 ∧ c1 ≤ '9')) then .error .invalidDuration
    else
      match leadingInt (c1 :: cs1) with
      | .error _ => .error .invalidDuration
      | .ok (v, s2) =>
        if s2.head? = some '.' then
          match leadingFraction s2.tail with
          | (f, scale, s3) =>
            if s2.length = (c1 :: cs1).length ∧ s3.length = s2.tail.length then
              .error .invalidDuration
            else afterDigits cal d inT frm v f scale s3
        else
          if s2.length = (c1 :: cs1).length then .error .invalidDuration
          else afterDigits cal d inT frm v 0 1 s2

/-- One full iteration of the parser loop: consume a `T` (switching to the
time-unit table) if present, then one token. -/
def stepOnce {I : Type} (cal : Calendar I) (d : Nat) (inT : Bool) (frm : I) :
    List Char → Except Err (Nat × Bool × I × List Char)
  | [] => .error .oob
  | c :: cs =>
    if c = 'T' then stepTok cal d true frm cs
    else stepTok cal d inT frm (c :: cs)

/-- The parser main loop (`for s != ""`), as fuel-indexed structural
recursion; each iteration consumes at least one character, so fuel equal to
the input length never runs out. -/
def durLoop {I : Type} (cal : Calendar I) :
    Nat → Nat → Bool → I → List Char → Except Err Nat
  | _, d, _, _, [] => .ok d
  | 0, _, _, _, _ :: _ => .error .oob
  | fuel + 1, d, inT, frm, c :: cs =>
    match stepOnce cal d inT frm (c :: cs) with
    | .error e => .error e
    | .ok (d1, inT1, frm1, s1) => durLoop cal fuel d1 inT1 frm1 s1

/-- Consume the optional leading sign (Go `[-+]?`). -/
def stripSign : List Char → Bool × List Char
  | [] => (false, [])
  | c :: cs =>
    if c = '-' then (true, cs)
    else if c = '+' then (false, cs)
    else (false, c :: cs)

/-- ParseDuration after the sign: reject the empty string and a missing
leading `P` with `ErrInvalidDuration`, then run the loop, producing the
accumulated unsigned magnitude. -/
def parseAfterSign {I : Type} (cal : Calendar I) (frm : I) :
    List Char → Except Err Nat
  | [] => .error .invalidDuration
  | c :: cs =>
    if c = 'P' then durLoop cal cs.length 0 false frm cs
    else .error .invalidDuration

/-- Go `ParseDuration` on the character list: strip the sign, parse the
magnitude, then apply the sign — `-time.Duration(d)` is two's complement
negation of the uint64 accumulator, and the positive branch checks
`d > 1<<63 - 1`. -/
def parseDurationL {I : Type} (cal : Calendar I) (frm : I) (s : List Char) :
    Except Err Int :=
  match stripSign s with
  | (neg, rest) =>
    match parseAfterSign cal frm rest with
    | .error e => .error e
    | .ok d =>
      if neg then .ok (toInt64 ((2^64 - d % 2^64) % 2^64))
      else if 2^63 - 1 < d then .error .overflow
      else .ok (d : Int)

/-- Go `ParseDuration`.  The `From` option (reference-instant provider,
defaulting to `time.Now`) is the explicit `cal`/`frm` pair. -/
def ParseDuration {I : Type} (cal : Calendar I) (frm : I) (s : String) :
    Except Err Int :=
  parseDurationL cal frm s.data

/-- Digit-writing loop of Go `fmtInt` for nonzero values, prepending the
decimal digits of `v`.  Fuel 32 is the Go buffer size; any uint64 value has
at most 20 digits. -/
def fmtIntLoop : Nat → Nat → List Char → List Char
  | 0, _, l => l
  | fuel + 1, v, l =>
    if v = 0 then l
    else fmtIntLoop fuel (v / 10) (Char.ofNat (v % 10 + 48) :: l)

/-- Go `fmtInt`: prepend the decimal digits of `v` (a single `0` when
`v = 0`). -/
def fmtInt (v : Nat) (l : List Char) : List Char :=
  if v = 0 then '0' :: l else fmtIntLoop 32 v l

/-- Loop of Go `fmtFrac`: examine `prec` low digits of `v` from the least
significant up, printing once a nonzero digit has been seen (this omits
trailing zeros), and return the truncated value and the print flag. -/
def fmtFracLoop : Nat → Nat → Bool → List Char → List Char × Nat × Bool
  | 0, v, isPrint, l => (l, v, isPrint)
  | i + 1, v, isPrint, l =>
    let digit := v % 10
    let isP := isPrint || decide (digit ≠ 0)
    fmtFracLoop i (v / 10) isP (if isP then Char.ofNat (digit + 48) :: l else l)

/-- Go `fmtFrac` at precision 9: prepend the fractional-second digits
(trailing zeros and, when the fraction is zero, the decimal point omitted),
returning the integer-second remainder. -/
def fmtFrac (v : Nat) (l : List Char) : List Char × Nat :=
  match fmtFracLoop 9 v false l with
  | (l1, v1, isP) => (if isP then '.' :: l1 else l1, v1)

/-- Body of Go `FormatDuration` for a nonzero magnitude `u` (everything
after the `P`): seconds with fraction (the just-written `0S` is removed
again when the seconds value is 0 and nothing else was written — the Go
`w += 2`), minutes and hours when nonzero, the `T` separator when any time
unit was written, then days when nonzero. -/
def formatMag (u : Nat) : List Char :=
  match fmtFrac u ['S'] with
  | (l1, u1) =>
    let l2 := fmtInt (u1 % 60) l1
    let l3 := if u1 % 60 = 0 ∧ l2.length = 2 then l2.drop 2 else l2
    let p :=
      if 0 < u1 / 60 then
        let m := u1 / 60
        let la := if 0 < m % 60 then fmtInt (m % 60) ('M' :: l3) else l3
        let hsrc := m / 60
        let lb := if 0 < hsrc ∧ 0 < hsrc % 24 then fmtInt (hsrc % 24) ('H' :: la) else la
        (lb, hsrc / 24)
      else (l3, u1 / 60)
    match p with
    | (l4, u2) =>
      let l5 := if l4 = [] then l4 else 'T' :: l4
      if 0 < u2 then fmtInt u2 ('D' :: l5) else l5

/-- Go `FormatDuration`: `PT0S` for zero, otherwise the optional sign, `P`,
and the rendered magnitude (`uint64` magnitude; for the minimum int64 value
the Go `u = -u` produces exactly `2^63`, which is `Int.natAbs`). -/
def FormatDuration (t : Int) : String :=
  if t = 0 then "PT0S"
  else ⟨(if t < 0 then ['-'] else []) ++ 'P' :: formatMag t.natAbs⟩

/-- Trivial calendar over the unit instant type, for inputs that contain no
month/year token (those never consult the calendar). -/
def calUnit : Calendar Unit where
  addDate := fun _ _ _ _ => ()
  sub := fun _ _ => 0
  add := fun _ _ => ()

/-- Demonstration calendar over integer instants whose month and year
lengths grow with the instant, making sequential resolution observable:
adding a month at instant `i` spans `30 + i` ticks, a year `365 + i`. -/
def calDemo : Calendar Int where
  addDate := fun i y m d => i + y * (365 + i) + m * (30 + i) + d
  sub := fun a b => a - b
  add := fun i t => i + t

/-- One step of reading a decimal digit run: the accumulator update shared
by both scanners. -/
def digCons (a : Nat) (c : Char) : Nat := a * 10 + (c.toNat - 48)

/-- Numeric value of a digit run, read most significant first. -/
def charsVal (l : List Char) : Nat := l.foldl digCons 0

/-- The list starts with a non-digit (or is empty). -/
def nonDigitStart (l : List Char) : Prop :=
  ∀ c, l.head? = some c → isDigitCh c = false

/-- Exactly `n` decimal digits of `v % 10^n`, zero padded, most significant
first: what `fmtFrac` prints once a nonzero digit has been seen. -/
def padDigits : Nat → Nat → List Char
  | 0, _ => []
  | n + 1, v => padDigits n (v / 10) ++ [Char.ofNat (v % 10 + 48)]

/-- The low `n` decimal digits of `v` with trailing zeros removed: the
digits `fmtFrac` actually prints. -/
def stripChars : Nat → Nat → List Char
  | 0, _ => []
  | n + 1, v =>
    if v % 10 = 0 then stripChars n (v / 10)
    else padDigits n (v / 10) ++ [Char.ofNat (v % 10 + 48)]

/-- Sub-second part of a magnitude. -/
def nsOf (u : Nat) : Nat := u % 10 ^ 9

/-- Seconds digit value rendered by the formatter. -/
def secOf (u : Nat) : Nat := u / 10 ^ 9 % 60

/-- Minutes digit value rendered by the formatter. -/
def minOf (u : Nat) : Nat := u / 10 ^ 9 / 60 % 60

/-- Hours digit value rendered by the formatter. -/
def hrOf (u : Nat) : Nat := u / 10 ^ 9 / 60 / 60 % 24

/-- Days value rendered by the formatter. -/
def dayOf (u : Nat) : Nat := u / 10 ^ 9 / 60 / 60 / 24

/-- The seconds token of the output: absent when both the seconds value and
the fraction are zero, otherwise the seconds digits, the stripped fraction
when nonzero, and `S`. -/
def sPartOf (u : Nat) : List Char :=
  if secOf u = 0 ∧ nsOf u = 0 then []
  else fmtInt (secOf u) [] ++ (if nsOf u = 0 then [] else '.' :: stripChars 9 u) ++ ['S']

/-- The minutes token of the output (absent when zero). -/
def mPartOf (u : Nat) : List Char :=
  if minOf u = 0 then [] else fmtInt (minOf u) [] ++ ['M']

/-- The hours token of the output (absent when zero). -/
def hPartOf (u : Nat) : List Char :=
  if hrOf u = 0 then [] else fmtInt (hrOf u) [] ++ ['H']

/-- The days token of the output (absent when zero). -/
def dPartOf (u : Nat) : List Char :=
  if dayOf u = 0 then [] else fmtInt (dayOf u) [] ++ ['D']

/-- Everything after the `T` designator. -/
def timePartOf (u : Nat) : List Char := hPartOf u ++ mPartOf u ++ sPartOf u

/-- The parser loop with fuel equal to the current input length: enough
fuel to finish, by the consumption lemmas. -/
def runP {I : Type} (cal : Calendar I) (d : Nat) (inT : Bool) (frm : I)
    (s : List Char) : Except Err Nat :=
  durLoop cal s.length d inT frm s

/-- The list begins with a character that ends a unit-token scan (digit,
`.`, or `T`), or is empty. -/
def unitStop (l : List Char) : Prop :=
  ∀ c, l.head? = some c → (c = '.' ∨ ('0' ≤ c ∧ c ≤ '9') ∨ c = 'T')

/-- The list begins with a digit, or is empty. -/
def digitStart (l : List Char) : Prop :=
  ∀ c, l.head? = some c → isDigitCh c = true

/-- Claim C1, counterexample: the claim asserts that `parse("P")` fails,
but `ParseDuration "P"` succeeds and returns the zero duration — after
consuming the `P` the loop body never runs and the accumulator 0 is
returned with no error. -/
theorem c1_counterexample : ParseDuration calUnit () "P" = .ok 0 := by rfl

/-- Claim C1 as amended: of the five listed inputs, `""`, `"1D"`, `"P1"`
and `"P.D"` are rejected — `""`, `"1D"` and `"P.D"` all with the
`InvalidFormat` kind (`ErrInvalidDuration`), so the error kinds are not
pairwise distinct, and `"P1"` with `MissingUnit` — while `"P"` is accepted
and returns the zero duration. -/
theorem c1_malformed_inputs :
    ParseDuration calUnit () "" = .error .invalidDuration ∧
    ParseDuration calUnit () "1D" = .error .invalidDuration ∧
    ParseDuration calUnit () "P" = .ok 0 ∧
    ParseDuration calUnit () "P1" = .error .missingUnit ∧
    ParseDuration calUnit () "P.D" = .error .invalidDuration := by
  refine ⟨by rfl, by rfl, by rfl, by rfl, by rfl⟩

/-- Claim C3, counterexample: the claim asserts the `UnknownUnit` error
kind for unrecognized unit letters, but `X` in the date section is rejected
with `ErrMissingUnit` — `duration.go` declares `ErrUnknownUnit` and never
returns it. -/
theorem c3_counterexample : ParseDuration calUnit () "P1X" = .error .missingUnit := by rfl

/-- Claim C5 evaluated at the failing input: a single token of magnitude
`2^63 + 1` (seconds plus fraction) slips past the accumulation check
`d > 1<<63 - v` (which wraps in uint64 for `v > 2^63`), so
`"-PT9223372036.854775809S"` silently returns the wrong positive value
`2^63 - 1` instead of failing with `Overflow`; the positive twin fails
only at the final sign-application check, not at the accumulation step.
The exact boundary `2^63` itself behaves as the claim states. -/
theorem c5_code_eval :
    ParseDuration calUnit () "-PT9223372036.854775809S" = .ok (2^63 - 1) ∧
    ParseDuration calUnit () "PT9223372036.854775809S" = .error .overflow ∧
    ParseDuration calUnit () "-PT9223372036.854775808S" = .ok (-(2^63)) ∧
    ParseDuration calUnit () "PT9223372036.854775808S" = .error .overflow := by
  refine ⟨by rfl, by rfl, by rfl, by rfl⟩

/-- Claim C8, counterexample: on a digit run overflowing before unit
scaling, `ParseDuration` reports `ErrInvalidDuration` to the caller, not
the distinct `ErrLeadingInt` kind — the wrapper at the `leadingInt` call
site wraps `ErrInvalidDuration`, discarding the scanner's sentinel. -/
theorem c8_counterexample :
    ParseDuration calUnit () "P9223372036854775809D" = .error .invalidDuration := by rfl

/-- Claim C2, counterexample: `FormatDuration` of one hour is `"PT1H"`,
whose output contains the `T` designator yet renders no seconds token at
all — the just-written `0S` is removed again whenever the integer seconds
are 0 and no fractional digit was printed. -/
theorem c2_counterexample :
    FormatDuration 3600000000000 = "PT1H" ∧
    'T' ∈ (FormatDuration 3600000000000).data ∧
    'S' ∉ (FormatDuration 3600000000000).data := by
  refine ⟨by rfl, by decide, by decide⟩

/-- Claim C6, counterexample: the claimed identity
`format(-t) = "-" ++ format(t)` fails for negative `t`: at `t = -1`
the left side is `"PT0.000000001S"` while the right side is
`"--PT0.000000001S"`. -/
theorem c6_counterexample :
    FormatDuration (-(-1 : Int)) ≠ "-" ++ FormatDuration (-1 : Int) := by decide

theorem isDigitCh_false_iff (c : Char) :
    isDigitCh c = false ↔ (c < '0' ∨ '9' < c) := by
  simp [isDigitCh, imp_iff_not_or, not_le]

theorem isDigitCh_true_iff (c : Char) :
    isDigitCh c = true ↔ ('0' ≤ c ∧ c ≤ '9') := by
  simp [isDigitCh]

theorem digitChar_toNat {d : Nat} (hd : d < 10) :
    (Char.ofNat (d + 48)).toNat = d + 48 := by
  interval_cases d <;> rfl

theorem digitChar_isDigit {d : Nat} (hd : d < 10) :
    isDigitCh (Char.ofNat (d + 48)) = true := by
  interval_cases d <;> rfl

theorem foldl_digCons_le {x : Nat} (ds : List Char) :
    x * 10 ^ ds.length ≤ List.foldl digCons x ds := by
  induction ds generalizing x with
  | nil => simp
  | cons c t ih =>
    calc x * 10 ^ (c :: t).length = (x * 10) * 10 ^ t.length := by
          rw [List.length_cons, pow_succ]; ring
    _ ≤ digCons x c * 10 ^ t.length :=
        Nat.mul_le_mul_right _ (Nat.le_add_right _ _)
    _ ≤ List.foldl digCons (digCons x c) t := ih
    _ = List.foldl digCons x (c :: t) := rfl

theorem self_le_foldl_digCons {x : Nat} (ds : List Char) :
    x ≤ List.foldl digCons x ds :=
  le_trans (by simpa using Nat.le_mul_of_pos_right x (pow_pos (by norm_num : (0:Nat) < 10) ds.length))
    (foldl_digCons_le ds)

/-- Successful run of the `leadingInt` accumulator loop over a digit run
whose total value stays within the overflow guards. -/
theorem leadingIntAux_spec (ds : List Char) :
    ∀ x rest, (∀ c ∈ ds, isDigitCh c = true) → nonDigitStart rest →
      List.foldl digCons x ds ≤ 2 ^ 63 →
      leadingIntAux x (ds ++ rest) = .ok (List.foldl digCons x ds, rest) := by
  induction ds with
  | nil =>
    intro x rest _ hrest _
    match rest, hrest with
    | [], _ => rfl
    | c :: cs, hrest =>
      have hc : isDigitCh c = false := hrest c rfl
      rw [isDigitCh_false_iff] at hc
      simp [leadingIntAux, hc]
  | cons c t ih =>
    intro x rest hds hrest hle
    have hc : isDigitCh c = true := hds c (by simp)
    have hcd : ¬(c < '0' ∨ '9' < c) := by
      rw [← isDigitCh_false_iff]
      simp [hc]
    have hstep : List.foldl digCons x (c :: t) = List.foldl digCons (digCons x c) t := rfl
    have h1 : digCons x c ≤ List.foldl digCons (digCons x c) t := self_le_foldl_digCons t
    have hx10 : x * 10 ≤ 2 ^ 63 := by
      have h2 : x * 10 ≤ digCons x c := Nat.le_add_right _ _
      rw [hstep] at hle
      omega
    have hxle : ¬(2 ^ 63 / 10 < x) := by
      have := (Nat.le_div_iff_mul_le (by norm_num : 0 < 10)).2 hx10
      omega
    have hy : ¬(2 ^ 63 < x * 10 + (c.toNat - 48)) := by
      have h2 : digCons x c ≤ 2 ^ 63 := by rw [hstep] at hle; omega
      simpa [digCons] using h2
    show leadingIntAux x (c :: (t ++ rest)) = _
    rw [leadingIntAux]
    simp only [hcd, if_false, hxle, hy]
    rw [hstep] at hle ⊢
    exact ih (digCons x c) rest (fun d hd => hds d (by simp [hd])) hrest hle

/-- Successful, non-freezing run of the `leadingFraction` accumulator loop:
value and scale both grow digit by digit. -/
theorem leadingFractionAux_spec (ds : List Char) :
    ∀ x sc rest, (∀ c ∈ ds, isDigitCh c = true) → nonDigitStart rest →
      List.foldl digCons x ds ≤ (2 ^ 63 - 1) / 10 →
      leadingFractionAux x sc false (ds ++ rest) =
        (List.foldl digCons x ds, sc * 10 ^ ds.length, rest) := by
  induction ds with
  | nil =>
    intro x sc rest _ hrest _
    match rest, hrest with
    | [], _ => simp [leadingFractionAux]
    | c :: cs, hrest =>
      have hc : isDigitCh c = false := hrest c rfl
      rw [isDigitCh_false_iff] at hc
      simp [leadingFractionAux, hc]
  | cons c t ih =>
    intro x sc rest hds hrest hle
    have hc : isDigitCh c = true := hds c (by simp)
    have hcd : ¬(c < '0' ∨ '9' < c) := by
      rw [← isDigitCh_false_iff]
      simp [hc]
    have hstep : List.foldl digCons x (c :: t) = List.foldl digCons (digCons x c) t := rfl
    have h1 : digCons x c ≤ List.foldl digCons (digCons x c) t := self_le_foldl_digCons t
    have hxle : ¬((2 ^ 63 - 1) / 10 < x) := by
      have hx : x ≤ digCons x c :=
        le_trans (Nat.le_mul_of_pos_right x (by norm_num)) (Nat.le_add_right _ _)
      have h2 : digCons x c ≤ (2 ^ 63 - 1) / 10 := by rw [hstep] at hle; omega
      omega
    have hy : ¬(2 ^ 63 < x * 10 + (c.toNat - 48)) := by
      have h2 : digCons x c ≤ (2 ^ 63 - 1) / 10 := by rw [hstep] at hle; omega
      have h3 : (2 ^ 63 - 1) / 10 ≤ 2 ^ 63 :=
        le_trans (Nat.div_le_self _ _) (by norm_num)
      simp only [digCons] at h2
      omega
    show leadingFractionAux x sc false (c :: (t ++ rest)) = _
    rw [leadingFractionAux]
    simp only [hcd, if_false, hxle, hy, Bool.false_eq_true]
    have h2 := ih (digCons x c) (sc * 10) rest (fun d hd => hds d (by simp [hd]))
      hrest (by rw [hstep] at hle; exact hle)
    rw [show (x * 10 + (c.toNat - 48)) = digCons x c from rfl, h2, hstep]
    have h3 : sc * 10 * 10 ^ t.length = sc * 10 ^ (c :: t).length := by
      rw [List.length_cons, pow_succ]; ring
    rw [h3]

/-- Once frozen, the fraction scanner only consumes the rest of the digit
run, leaving value and scale unchanged. -/
theorem leadingFractionAux_frozen (s : List Char) :
    ∀ x sc, leadingFractionAux x sc true s = (x, sc, s.dropWhile isDigitCh) := by
  induction s with
  | nil => intro x sc; rfl
  | cons c rest ih =>
    intro x sc
    by_cases h : c < '0' ∨ '9' < c
    · have hc : isDigitCh c = false := (isDigitCh_false_iff c).2 h
      simp [leadingFractionAux, h, List.dropWhile_cons, hc]
    · have hc : isDigitCh c = true := by
        rw [isDigitCh_true_iff]
        push_neg at h
        exact h
      simp [leadingFractionAux, h, List.dropWhile_cons, hc, ih]

/-- The fraction scanner's remainder always begins at the first non-digit
character, freeze or no freeze. -/
theorem leadingFractionAux_rem (s : List Char) :
    ∀ x sc b, (leadingFractionAux x sc b s).2.2 = s.dropWhile isDigitCh := by
  induction s with
  | nil => intro x sc b; rfl
  | cons c rest ih =>
    intro x sc b
    by_cases h : c < '0' ∨ '9' < c
    · have hc : isDigitCh c = false := (isDigitCh_false_iff c).2 h
      simp [leadingFractionAux, h, List.dropWhile_cons, hc]
    · have hc : isDigitCh c = true := by
        rw [isDigitCh_true_iff]
        push_neg at h
        exact h
      rw [List.dropWhile_cons]
      simp only [hc, if_true]
      rw [leadingFractionAux]
      simp only [h, if_false]
      split
      · apply ih
      · split
        · apply ih
        · split
          · apply ih
          · apply ih

/-- Claim C9: `leadingFraction` has no error path.  Once frozen it leaves
value and scale unchanged (first conjunct); the freeze triggers exactly
when the next multiply-by-ten-and-add would exceed the range guards, while
the remaining digits are still consumed (second conjunct); and the
remainder always starts at the first non-digit character (third
conjunct). -/
theorem c9_leadingFraction_freeze :
    (∀ (s : List Char) (x sc : Nat),
      leadingFractionAux x sc true s = (x, sc, s.dropWhile isDigitCh)) ∧
    (∀ (x sc : Nat) (c : Char) (s : List Char), isDigitCh c = true →
      ((2 ^ 63 - 1) / 10 < x ∨ 2 ^ 63 < x * 10 + (c.toNat - 48)) →
      leadingFractionAux x sc false (c :: s) = (x, sc, s.dropWhile isDigitCh)) ∧
    (∀ (s : List Char) (x sc : Nat) (b : Bool),
      (leadingFractionAux x sc b s).2.2 = s.dropWhile isDigitCh) := by
  refine ⟨leadingFractionAux_frozen, ?_, leadingFractionAux_rem⟩
  intro x sc c s hc hover
  have hcd : ¬(c < '0' ∨ '9' < c) := by
    rw [← isDigitCh_false_iff]
    simp [hc]
  rw [leadingFractionAux]
  simp only [hcd, if_false, Bool.false_eq_true]
  rcases hover with h | h
  · rw [if_pos h, leadingFractionAux_frozen]
  · by_cases h1 : (2 ^ 63 - 1) / 10 < x
    · rw [if_pos h1, leadingFractionAux_frozen]
    · rw [if_neg h1, if_pos h, leadingFractionAux_frozen]

/-- Witness for C9: the freeze-trigger conjunct at a concrete over-limit
accumulator; the digit `7` is consumed but value and scale are unchanged,
and the remainder starts at the non-digit `x`. -/
theorem c9_witness :
    leadingFractionAux (2 ^ 63) 100 false ['7', 'x'] = (2 ^ 63, 100, ['x']) :=
  c9_leadingFraction_freeze.2.1 (2 ^ 63) 100 '7' ['x'] (by decide)
    (Or.inl (by norm_num))

theorem mod_mul_decomp (x m : Nat) :
    x % (10 * m) = x % 10 + 10 * (x / 10 % m) := by
  have h1 : x % (10 * m) / 10 = x / 10 % m := Nat.mod_mul_right_div_self x 10 m
  have h2 : x % (10 * m) % 10 = x % 10 := Nat.mod_mod_of_dvd x ⟨m, rfl⟩
  have h3 := Nat.div_add_mod (x % (10 * m)) 10
  omega

theorem charsVal_append_single (xs : List Char) (c : Char) :
    charsVal (xs ++ [c]) = charsVal xs * 10 + (c.toNat - 48) := by
  simp [charsVal, List.foldl_append, digCons]

theorem fmtIntLoop_append (fuel : Nat) :
    ∀ v l, fmtIntLoop fuel v l = fmtIntLoop fuel v [] ++ l := by
  induction fuel with
  | zero => intro v l; rfl
  | succ fuel ih =>
    intro v l
    by_cases hv : v = 0
    · simp [fmtIntLoop, hv]
    · rw [fmtIntLoop, if_neg hv, fmtIntLoop, if_neg hv,
        ih (v / 10) [Char.ofNat (v % 10 + 48)], ih (v / 10) (Char.ofNat (v % 10 + 48) :: l),
        List.append_assoc]
      rfl

theorem fmtIntLoop_digits (fuel : Nat) :
    ∀ v c, c ∈ fmtIntLoop fuel v [] → isDigitCh c = true := by
  induction fuel with
  | zero => intro v c hc; simp [fmtIntLoop] at hc
  | succ fuel ih =>
    intro v c hc
    by_cases hv : v = 0
    · simp [fmtIntLoop, hv] at hc
    · rw [fmtIntLoop, if_neg hv, fmtIntLoop_append] at hc
      rcases List.mem_append.1 hc with h | h
      · exact ih _ _ h
      · have : c = Char.ofNat (v % 10 + 48) := by simpa using h
        rw [this]
        exact digitChar_isDigit (Nat.mod_lt v (by norm_num))

theorem fmtIntLoop_val (fuel : Nat) :
    ∀ v, v < 10 ^ fuel → charsVal (fmtIntLoop fuel v []) = v := by
  induction fuel with
  | zero => intro v hv; interval_cases v; rfl
  | succ fuel ih =>
    intro v hv
    by_cases hv0 : v = 0
    · simp [fmtIntLoop, hv0, charsVal]
    · rw [fmtIntLoop, if_neg hv0, fmtIntLoop_append, charsVal_append_single,
        digitChar_toNat (Nat.mod_lt v (by norm_num)),
        ih (v / 10) (Nat.div_lt_of_lt_mul (by rw [pow_succ, Nat.mul_comm] at hv; exact hv))]
      omega

theorem fmtIntLoop_ne_nil (fuel : Nat) (v : Nat) (hv : v ≠ 0) :
    fmtIntLoop (fuel + 1) v [] ≠ [] := by
  rw [fmtIntLoop, if_neg hv, fmtIntLoop_append]
  simp

theorem fmtInt_append (v : Nat) (l : List Char) :
    fmtInt v l = fmtInt v [] ++ l := by
  by_cases hv : v = 0
  · simp [fmtInt, hv]
  · rw [fmtInt, if_neg hv, fmtInt, if_neg hv, fmtIntLoop_append]

theorem fmtInt_digits (v : Nat) : ∀ c ∈ fmtInt v [], isDigitCh c = true := by
  intro c hc
  by_cases hv : v = 0
  · simp [fmtInt, hv] at hc
    rw [hc]; rfl
  · rw [fmtInt, if_neg hv] at hc
    exact fmtIntLoop_digits 32 v c hc

theorem fmtInt_val (v : Nat) (hv : v < 10 ^ 32) : charsVal (fmtInt v []) = v := by
  by_cases hv0 : v = 0
  · simp [fmtInt, hv0, charsVal, digCons]
  · rw [fmtInt, if_neg hv0]
    exact fmtIntLoop_val 32 v hv

theorem fmtInt_ne_nil (v : Nat) : fmtInt v [] ≠ [] := by
  by_cases hv : v = 0
  · simp [fmtInt, hv]
  · rw [fmtInt, if_neg hv]
    exact fmtIntLoop_ne_nil 31 v hv

theorem padDigits_len (n : Nat) : ∀ v, (padDigits n v).length = n := by
  induction n with
  | zero => intro v; rfl
  | succ n ih => intro v; simp [padDigits, ih]

theorem padDigits_digits (n : Nat) :
    ∀ v c, c ∈ padDigits n v → isDigitCh c = true := by
  induction n with
  | zero => intro v c hc; simp [padDigits] at hc
  | succ n ih =>
    intro v c hc
    rw [padDigits] at hc
    rcases List.mem_append.1 hc with h | h
    · exact ih _ _ h
    · have : c = Char.ofNat (v % 10 + 48) := by simpa using h
      rw [this]
      exact digitChar_isDigit (Nat.mod_lt v (by norm_num))

theorem padDigits_val (n : Nat) :
    ∀ v, charsVal (padDigits n v) = v % 10 ^ n := by
  induction n with
  | zero => intro v; simp [padDigits, charsVal, Nat.mod_one]
  | succ n ih =>
    intro v
    rw [padDigits, charsVal_append_single, ih,
      digitChar_toNat (Nat.mod_lt v (by norm_num)), pow_succ, Nat.mul_comm (10 ^ n) 10,
      mod_mul_decomp]
    omega

theorem stripChars_nil (n : Nat) :
    ∀ v, v % 10 ^ n = 0 → stripChars n v = [] := by
  induction n with
  | zero => intro v _; rfl
  | succ n ih =>
    intro v hv
    rw [pow_succ, Nat.mul_comm (10 ^ n) 10, mod_mul_decomp] at hv
    have h1 : v % 10 = 0 := by omega
    have h2 : v / 10 % 10 ^ n = 0 := by omega
    rw [stripChars, if_pos h1]
    exact ih _ h2

theorem stripChars_len (n : Nat) : ∀ v, (stripChars n v).length ≤ n := by
  induction n with
  | zero => intro v; simp [stripChars]
  | succ n ih =>
    intro v
    rw [stripChars]
    by_cases h : v % 10 = 0
    · rw [if_pos h]
      exact le_trans (ih _) (Nat.le_succ n)
    · rw [if_neg h]
      simp [padDigits_len]

theorem stripChars_digits (n : Nat) :
    ∀ v c, c ∈ stripChars n v → isDigitCh c = true := by
  induction n with
  | zero => intro v c hc; simp [stripChars] at hc
  | succ n ih =>
    intro v c hc
    rw [stripChars] at hc
    by_cases h : v % 10 = 0
    · rw [if_pos h] at hc
      exact ih _ _ hc
    · rw [if_neg h] at hc
      rcases List.mem_append.1 hc with h1 | h1
      · exact padDigits_digits n _ _ h1
      · have : c = Char.ofNat (v % 10 + 48) := by simpa using h1
        rw [this]
        exact digitChar_isDigit (Nat.mod_lt v (by norm_num))

theorem stripChars_val (n : Nat) :
    ∀ v, charsVal (stripChars n v) * 10 ^ (n - (stripChars n v).length) = v % 10 ^ n := by
  induction n with
  | zero => intro v; simp [stripChars, charsVal, Nat.mod_one]
  | succ n ih =>
    intro v
    rw [pow_succ, Nat.mul_comm (10 ^ n) 10, mod_mul_decomp]
    by_cases h : v % 10 = 0
    · rw [stripChars, if_pos h]
      have hlen := stripChars_len n (v / 10)
      have hih := ih (v / 10)
      have hexp : n + 1 - (stripChars n (v / 10)).length
          = (n - (stripChars n (v / 10)).length) + 1 := by omega
      rw [hexp, pow_succ, ← Nat.mul_assoc, hih]
      omega
    · rw [stripChars, if_neg h, charsVal_append_single, padDigits_val,
        digitChar_toNat (Nat.mod_lt v (by norm_num))]
      simp [padDigits_len]
      ring

theorem stripChars_ne_nil (n v : Nat) (hv : v % 10 ^ n ≠ 0) :
    stripChars n v ≠ [] := by
  intro hnil
  have := stripChars_val n v
  rw [hnil] at this
  simp [charsVal] at this
  exact hv this.symm

theorem stripChars_val_ne_zero (n v : Nat) (hv : v % 10 ^ n ≠ 0) :
    charsVal (stripChars n v) ≠ 0 := by
  intro h0
  have := stripChars_val n v
  rw [h0, Nat.zero_mul] at this
  exact hv this.symm

theorem fmtFracLoop_print (n : Nat) :
    ∀ v l, fmtFracLoop n v true l = (padDigits n v ++ l, v / 10 ^ n, true) := by
  induction n with
  | zero => intro v l; simp [fmtFracLoop, padDigits]
  | succ n ih =>
    intro v l
    rw [fmtFracLoop]
    simp only [Bool.true_or, if_true]
    rw [ih (v / 10) (Char.ofNat (v % 10 + 48) :: l)]
    rw [padDigits, List.append_assoc, Nat.div_div_eq_div_mul, ← pow_succ']
    rfl

theorem fmtFracLoop_strip (n : Nat) :
    ∀ v l, fmtFracLoop n v false l
      = (stripChars n v ++ l, v / 10 ^ n, decide (v % 10 ^ n ≠ 0)) := by
  induction n with
  | zero => intro v l; simp [fmtFracLoop, stripChars, Nat.mod_one]
  | succ n ih =>
    intro v l
    rw [fmtFracLoop]
    by_cases h : v % 10 = 0
    · have hd : decide (v % 10 ≠ 0) = false := by simp [h]
      simp only [hd, Bool.false_or, Bool.false_eq_true, if_false]
      rw [ih (v / 10) l, stripChars, if_pos h]
      have hflag : (v / 10 % 10 ^ n ≠ 0) ↔ (v % 10 ^ (n + 1) ≠ 0) := by
        rw [pow_succ, Nat.mul_comm (10 ^ n) 10, mod_mul_decomp]
        omega
      rw [Nat.div_div_eq_div_mul, ← pow_succ']
      simp only [decide_eq_decide.2 hflag]
    · have hd : decide (v % 10 ≠ 0) = true := by simp [h]
      simp only [hd, Bool.false_or, if_true]
      rw [fmtFracLoop_print n (v / 10) (Char.ofNat (v % 10 + 48) :: l)]
      have hflag : decide (v % 10 ^ (n + 1) ≠ 0) = true := by
        have : v % 10 ^ (n + 1) % 10 = v % 10 :=
          Nat.mod_mod_of_dvd v ⟨10 ^ n, by rw [pow_succ]; ring⟩
        simp only [decide_eq_true_eq]
        intro h0
        rw [h0] at this
        exact h this.symm
      rw [hflag, stripChars, if_neg h, List.append_assoc, Nat.div_div_eq_div_mul, ← pow_succ']
      simp

theorem fmtFrac_spec (v : Nat) (l : List Char) :
    fmtFrac v l
      = (if v % 10 ^ 9 = 0 then l else '.' :: (stripChars 9 v ++ l), v / 10 ^ 9) := by
  rw [fmtFrac, fmtFracLoop_strip]
  by_cases h : v % 10 ^ 9 = 0
  · simp only [h, decide_eq_true_eq, if_pos h]
    rw [stripChars_nil 9 v h]
    simp
  · simp only [if_neg h]
    have hd : decide (v % 10 ^ 9 ≠ 0) = true := by simpa using h
    rw [hd]
    simp

theorem secStage (u : Nat) :
    (if u / 10 ^ 9 % 60 = 0 ∧
        (fmtInt (u / 10 ^ 9 % 60)
          (if u % 10 ^ 9 = 0 then ['S'] else '.' :: (stripChars 9 u ++ ['S']))).length = 2 then
      (fmtInt (u / 10 ^ 9 % 60)
        (if u % 10 ^ 9 = 0 then ['S'] else '.' :: (stripChars 9 u ++ ['S']))).drop 2
    else
      fmtInt (u / 10 ^ 9 % 60)
        (if u % 10 ^ 9 = 0 then ['S'] else '.' :: (stripChars 9 u ++ ['S'])))
    = sPartOf u := by
  by_cases hns : u % 10 ^ 9 = 0
  · by_cases hsec : u / 10 ^ 9 % 60 = 0
    · rw [if_pos hns, hsec, if_pos ⟨rfl, rfl⟩]
      unfold sPartOf secOf nsOf
      rw [if_pos ⟨hsec, hns⟩]
      rfl
    · rw [if_pos hns, if_neg (fun h => hsec h.1), fmtInt_append]
      unfold sPartOf secOf nsOf
      rw [if_neg (fun h : _ ∧ _ => hsec h.1), if_pos hns]
      simp
  · have hstrip : stripChars 9 u ≠ [] := stripChars_ne_nil 9 u hns
    have hfi : fmtInt (u / 10 ^ 9 % 60) [] ≠ [] := fmtInt_ne_nil _
    have hlen : (fmtInt (u / 10 ^ 9 % 60) ('.' :: (stripChars 9 u ++ ['S']))).length ≠ 2 := by
      rw [fmtInt_append]
      rcases List.exists_cons_of_ne_nil hfi with ⟨a, ta, ha⟩
      rcases List.exists_cons_of_ne_nil hstrip with ⟨b, tb, hb⟩
      rw [ha, hb]
      simp
      omega
    rw [if_neg hns, if_neg (fun h => hlen h.2), fmtInt_append]
    unfold sPartOf secOf nsOf
    rw [if_neg (fun h : _ ∧ _ => hns h.2), if_neg hns]
    simp

theorem mhdStage (mt : Nat) (l3 : List Char) :
    (if 0 < mt then
      ((if 0 < mt / 60 ∧ 0 < mt / 60 % 24 then
          fmtInt (mt / 60 % 24)
            ('H' :: (if 0 < mt % 60 then fmtInt (mt % 60) ('M' :: l3) else l3))
        else (if 0 < mt % 60 then fmtInt (mt % 60) ('M' :: l3) else l3)),
       mt / 60 / 24)
    else (l3, mt))
    = ((if mt / 60 % 24 = 0 then [] else fmtInt (mt / 60 % 24) [] ++ ['H'])
        ++ ((if mt % 60 = 0 then [] else fmtInt (mt % 60) [] ++ ['M']) ++ l3),
       mt / 60 / 24) := by
  by_cases hmt : 0 < mt
  · rw [if_pos hmt]
    have hla : (if 0 < mt % 60 then fmtInt (mt % 60) ('M' :: l3) else l3)
        = (if mt % 60 = 0 then [] else fmtInt (mt % 60) [] ++ ['M']) ++ l3 := by
      by_cases hm : 0 < mt % 60
      · rw [if_pos hm, if_neg (by omega), fmtInt_append]
        simp
      · rw [if_neg hm, if_pos (by omega)]
        simp
    by_cases hh : 0 < mt / 60 % 24
    · have hpos : 0 < mt / 60 := by
        rcases Nat.eq_zero_or_pos (mt / 60) with h | h
        · rw [h] at hh; simp at hh
        · exact h
      rw [if_pos ⟨hpos, hh⟩, hla, fmtInt_append]
      conv_rhs => rw [if_neg (show ¬mt / 60 % 24 = 0 by omega)]
      simp
    · rw [if_neg (fun h => hh h.2), hla]
      conv_rhs => rw [if_pos (show mt / 60 % 24 = 0 by omega)]
      simp
  · rw [if_neg hmt]
    have h0 : mt = 0 := by omega
    rw [h0]
    simp

/-- Structure of the formatter's magnitude rendering: each unit token is
present exactly when its value is nonzero (seconds: when the seconds value
or the fraction is nonzero), and `T` precedes the time tokens exactly when
some time token is present. -/
theorem formatMag_eq (u : Nat) :
    formatMag u = dPartOf u ++ (if timePartOf u = [] then [] else 'T' :: timePartOf u) := by
  simp only [formatMag, fmtFrac_spec, secStage, mhdStage]
  have htime : (if u / 10 ^ 9 / 60 / 60 % 24 = 0 then []
        else fmtInt (u / 10 ^ 9 / 60 / 60 % 24) [] ++ ['H'])
      ++ ((if u / 10 ^ 9 / 60 % 60 = 0 then []
        else fmtInt (u / 10 ^ 9 / 60 % 60) [] ++ ['M']) ++ sPartOf u)
      = timePartOf u := by
    unfold timePartOf hPartOf mPartOf hrOf minOf
    rw [List.append_assoc]
  rw [htime]
  by_cases hd : u / 10 ^ 9 / 60 / 60 / 24 = 0
  · rw [if_neg (show ¬0 < u / 10 ^ 9 / 60 / 60 / 24 by omega)]
    unfold dPartOf dayOf
    rw [if_pos hd]
    rw [List.nil_append]
    by_cases ht : timePartOf u = []
    · rw [if_pos ht, if_pos ht, ht]
    · rw [if_neg ht, if_neg ht]
  · rw [if_pos (show 0 < u / 10 ^ 9 / 60 / 60 / 24 by omega), fmtInt_append]
    unfold dPartOf dayOf
    rw [if_neg hd]
    by_cases ht : timePartOf u = []
    · rw [if_pos ht, if_pos ht, ht]
      simp
    · rw [if_neg ht, if_neg ht]
      simp

theorem leadingIntAux_len (s : List Char) :
    ∀ x v rem, leadingIntAux x s = .ok (v, rem) → rem.length ≤ s.length := by
  induction s with
  | nil =>
    intro x v rem h
    simp only [leadingIntAux, Except.ok.injEq, Prod.mk.injEq] at h
    rw [← h.2]
  | cons c t ih =>
    intro x v rem h
    simp only [leadingIntAux] at h
    by_cases hc : c < '0' ∨ '9' < c
    · rw [if_pos hc] at h
      simp only [Except.ok.injEq, Prod.mk.injEq] at h
      rw [← h.2]
    · rw [if_neg hc] at h
      by_cases h1 : 2 ^ 63 / 10 < x
      · rw [if_pos h1] at h
        exact absurd h (by simp)
      · rw [if_neg h1] at h
        by_cases h2 : 2 ^ 63 < x * 10 + (c.toNat - 48)
        · rw [if_pos h2] at h
          exact absurd h (by simp)
        · rw [if_neg h2] at h
          exact le_trans (ih _ _ _ h) (Nat.le_succ _)

theorem dropWhile_length_le (p : Char → Bool) (l : List Char) :
    (l.dropWhile p).length ≤ l.length := by
  induction l with
  | nil => simp
  | cons c t ih =>
    rw [List.dropWhile_cons]
    by_cases h : p c = true
    · rw [if_pos h]
      simp only [List.length_cons]
      omega
    · rw [if_neg h]

theorem leadingFraction_rem_len (s : List Char) :
    (leadingFraction s).2.2.length ≤ s.length := by
  rw [leadingFraction, leadingFractionAux_rem]
  exact dropWhile_length_le _ _

theorem unitLen_le (s : List Char) : unitLen s ≤ s.length := by
  induction s with
  | nil => exact le_refl _
  | cons c t ih =>
    rw [unitLen]
    by_cases hc : c = '.' ∨ ('0' ≤ c ∧ c ≤ '9') ∨ c = 'T'
    · rw [if_pos hc]
      exact Nat.zero_le _
    · rw [if_neg hc, List.length_cons]
      omega

theorem afterDigits_len {I : Type} (cal : Calendar I) (d : Nat) (inT : Bool)
    (frm : I) (v f sc : Nat) (s3 : List Char) (r : Nat × Bool × I × List Char)
    (h : afterDigits cal d inT frm v f sc s3 = .ok r) :
    r.2.2.2.length < s3.length := by
  have hlen : unitLen s3 ≤ s3.length := unitLen_le s3
  simp only [afterDigits] at h
  by_cases hi : unitLen s3 = 0
  · rw [if_pos hi] at h
    exact absurd h (by simp)
  · rw [if_neg hi] at h
    have hdrop : (s3.drop (unitLen s3)).length < s3.length := by
      rw [List.length_drop]
      omega
    split at h
    · exact absurd h (by simp)
    · split at h
      · split at h
        · exact absurd h (by simp)
        · split at h
          · exact absurd h (by simp)
          · simp only [Except.ok.injEq] at h
            rw [← h]
            exact hdrop
      · split at h
        · exact absurd h (by simp)
        · simp only [Except.ok.injEq] at h
          rw [← h]
          exact hdrop

theorem stepTok_len {I : Type} (cal : Calendar I) (d : Nat) (inT : Bool)
    (frm : I) (s : List Char) (r : Nat × Bool × I × List Char)
    (h : stepTok cal d inT frm s = .ok r) :
    r.2.2.2.length < s.length := by
  match s with
  | [] => exact absurd h (by simp [stepTok])
  | c1 :: cs1 =>
    simp only [stepTok] at h
    split at h
    · exact absurd h (by simp)
    · split at h
      · exact absurd h (by simp)
      · next v s2 heq =>
        have hs2 : s2.length ≤ (c1 :: cs1).length := leadingIntAux_len _ _ _ _ heq
        split at h
        · next hdot =>
          have hs2ne : s2 ≠ [] := by
            intro hnil
            rw [hnil] at hdot
            exact absurd hdot (by simp)
          have htl : s2.tail.length = s2.length - 1 := by
            rcases List.exists_cons_of_ne_nil hs2ne with ⟨a, ta, ha⟩
            rw [ha]
            simp
          have hpos : 0 < s2.length := by
            rcases List.exists_cons_of_ne_nil hs2ne with ⟨a, ta, ha⟩
            rw [ha]
            simp
          have hs3 : (leadingFraction s2.tail).2.2.length ≤ s2.tail.length :=
            leadingFraction_rem_len s2.tail
          split at h
          · exact absurd h (by simp)
          · have hlt := afterDigits_len cal d inT frm v
              (leadingFraction s2.tail).1 (leadingFraction s2.tail).2.1
              (leadingFraction s2.tail).2.2 r h
            simp only [List.length_cons] at hs2 ⊢
            omega
        · split at h
          · exact absurd h (by simp)
          · next hpre =>
            have hlt := afterDigits_len cal d inT frm v 0 1 s2 r h
            simp only [List.length_cons] at hs2 ⊢
            omega

theorem stepOnce_len {I : Type} (cal : Calendar I) (d : Nat) (inT : Bool)
    (frm : I) (s : List Char) (r : Nat × Bool × I × List Char)
    (h : stepOnce cal d inT frm s = .ok r) :
    r.2.2.2.length < s.length := by
  match s with
  | [] => exact absurd h (by simp [stepOnce])
  | c :: cs =>
    simp only [stepOnce] at h
    by_cases hT : c = 'T'
    · rw [if_pos hT] at h
      have := stepTok_len cal d true frm cs r h
      simp only [List.length_cons]
      omega
    · rw [if_neg hT] at h
      exact stepTok_len cal d inT frm (c :: cs) r h

theorem durLoop_nil {I : Type} (cal : Calendar I) (fuel d : Nat) (inT : Bool)
    (frm : I) : durLoop cal fuel d inT frm [] = .ok d := by
  cases fuel <;> rfl

theorem durLoop_cons {I : Type} (cal : Calendar I) (fuel d : Nat) (inT : Bool)
    (frm : I) (c : Char) (cs : List Char) :
    durLoop cal (fuel + 1) d inT frm (c :: cs)
      = (match stepOnce cal d inT frm (c :: cs) with
        | Except.error e => Except.error e
        | Except.ok (d1, inT1, frm1, s1) => durLoop cal fuel d1 inT1 frm1 s1) := rfl

theorem durLoop_fuel {I : Type} (cal : Calendar I) (f1 : Nat) :
    ∀ f2 d inT frm (s : List Char), s.length ≤ f1 → s.length ≤ f2 →
      durLoop cal f1 d inT frm s = durLoop cal f2 d inT frm s := by
  induction f1 with
  | zero =>
    intro f2 d inT frm s h1 _
    have hs : s = [] := List.length_eq_zero.1 (Nat.le_zero.1 h1)
    rw [hs, durLoop_nil, durLoop_nil]
  | succ f1 ih =>
    intro f2 d inT frm s h1 h2
    match s with
    | [] => rw [durLoop_nil, durLoop_nil]
    | c :: cs =>
      have hf2 : ∃ f2x, f2 = f2x + 1 := by
        rcases f2 with _ | f2x
        · simp at h2
        · exact ⟨f2x, rfl⟩
      rcases hf2 with ⟨f2x, rfl⟩
      rw [durLoop_cons, durLoop_cons]
      rcases hstep : stepOnce cal d inT frm (c :: cs) with e | q
      · rfl
      · rcases q with ⟨d1, inT1, frm1, s1⟩
        have hlt := stepOnce_len cal d inT frm (c :: cs) (d1, inT1, frm1, s1) hstep
        simp only [List.length_cons] at h1 h2 hlt
        exact ih f2x d1 inT1 frm1 s1 (by omega) (by omega)

theorem runP_nil {I : Type} (cal : Calendar I) (d : Nat) (inT : Bool) (frm : I) :
    runP cal d inT frm [] = .ok d := rfl

theorem runP_step {I : Type} (cal : Calendar I) (d : Nat) (inT : Bool) (frm : I)
    (s : List Char) (d1 : Nat) (inT1 : Bool) (frm1 : I) (s1 : List Char)
    (h : stepOnce cal d inT frm s = .ok (d1, inT1, frm1, s1)) :
    runP cal d inT frm s = runP cal d1 inT1 frm1 s1 := by
  match s with
  | [] => exact absurd h (by simp [stepOnce])
  | c :: cs =>
    have hlt := stepOnce_len cal d inT frm (c :: cs) (d1, inT1, frm1, s1) h
    show durLoop cal (c :: cs).length d inT frm (c :: cs) = _
    rw [List.length_cons, durLoop_cons, h]
    exact durLoop_fuel cal cs.length s1.length d1 inT1 frm1 s1
      (by simp only [List.length_cons] at hlt; omega) (le_refl _)

theorem runP_err {I : Type} (cal : Calendar I) (d : Nat) (inT : Bool) (frm : I)
    (c : Char) (cs : List Char) (e : Err)
    (h : stepOnce cal d inT frm (c :: cs) = .error e) :
    runP cal d inT frm (c :: cs) = .error e := by
  show durLoop cal (c :: cs).length d inT frm (c :: cs) = _
  rw [List.length_cons, durLoop_cons, h]

theorem charsVal_def (l : List Char) : List.foldl digCons 0 l = charsVal l := rfl

theorem unitLen_zero (l : List Char) (h : unitStop l) : unitLen l = 0 := by
  match l with
  | [] => rfl
  | c :: t =>
    rw [unitLen, if_pos (h c rfl)]

theorem unitLen_one (ch : Char) (rest : List Char)
    (hch : ¬(ch = '.' ∨ ('0' ≤ ch ∧ ch ≤ '9') ∨ ch = 'T'))
    (hrest : unitStop rest) : unitLen (ch :: rest) = 1 := by
  rw [unitLen, if_neg hch, unitLen_zero rest hrest]

theorem sub64_small (b : Nat) (hb : b ≤ 2 ^ 63) : sub64 (2 ^ 63) b = 2 ^ 63 - b := by
  rw [sub64, Nat.mod_eq_of_lt (show b < 2 ^ 64 by omega)]
  omega

theorem add64_small (a b : Nat) (h : a + b ≤ 2 ^ 63) : add64 a b = a + b := by
  rw [add64]
  omega

theorem resolve_time_int {I : Type} (cal : Calendar I) (frm : I)
    (name : List Char) (w v : Nat) (hlook : timeUnits name = some w)
    (hv : ¬2 ^ 63 / w < v) :
    resolveUnit cal true frm name v 0 = .ok (v * w, frm) := by
  show Except.map (fun out => (out, frm)) (sampleUnit timeUnits name v 0) = _
  simp only [sampleUnit, hlook]
  rw [if_neg (by norm_num : ¬(0 : Nat) ≠ 0), if_neg hv]
  rfl

theorem resolve_time_frac {I : Type} (cal : Calendar I) (frm : I)
    (name : List Char) (w f k : Nat) (hlook : timeUnits name = some w)
    (hns : ¬2 ^ 63 < f * w / 10 ^ k) :
    resolveUnit cal true frm name f (10 ^ k) = .ok (f * w / 10 ^ k, frm) := by
  have h10 : (10 : Nat) ^ k ≠ 0 := by positivity
  show Except.map (fun out => (out, frm)) (sampleUnit timeUnits name f (10 ^ k)) = _
  simp only [sampleUnit, hlook]
  rw [if_pos h10, if_neg hns]
  rfl

theorem resolve_date_int {I : Type} (cal : Calendar I) (frm : I) (v : Nat)
    (hv : ¬2 ^ 63 / NDay < v) :
    resolveUnit cal false frm ['D'] v 0 = .ok (v * NDay, frm) := by
  show Except.map (fun out => (out, frm)) (sampleUnit dateUnits ['D'] v 0) = _
  simp only [sampleUnit, show dateUnits ['D'] = some NDay from rfl]
  rw [if_neg (by norm_num : ¬(0 : Nat) ≠ 0), if_neg hv]
  rfl

theorem resolve_month_int {I : Type} (cal : Calendar I) (frm : I) (v : Nat)
    (hout : ¬2 ^ 63 < month cal frm v 0) :
    resolveUnit cal false frm ['M'] v 0
      = .ok (month cal frm v 0, cal.add frm (toInt64 (month cal frm v 0))) := by
  show (if 2 ^ 63 < month cal frm v 0 then (.error .overflow : Except Err (Nat × I))
      else .ok (month cal frm v 0, cal.add frm (toInt64 (month cal frm v 0))))
    = .ok (month cal frm v 0, cal.add frm (toInt64 (month cal frm v 0)))
  rw [if_neg hout]

theorem resolve_month_frac {I : Type} (cal : Calendar I) (frm : I) (f sc : Nat)
    (hout : ¬2 ^ 63 < month cal frm f sc) :
    resolveUnit cal false frm ['M'] f sc
      = .ok (month cal frm f sc, cal.add frm (toInt64 (month cal frm f sc))) := by
  show (if 2 ^ 63 < month cal frm f sc then (.error .overflow : Except Err (Nat × I))
      else .ok (month cal frm f sc, cal.add frm (toInt64 (month cal frm f sc))))
    = .ok (month cal frm f sc, cal.add frm (toInt64 (month cal frm f sc)))
  rw [if_neg hout]

theorem resolve_year_int {I : Type} (cal : Calendar I) (frm : I) (v : Nat)
    (hout : ¬2 ^ 63 < year cal frm v 0) :
    resolveUnit cal false frm ['Y'] v 0
      = .ok (year cal frm v 0, cal.add frm (toInt64 (year cal frm v 0))) := by
  show (if 2 ^ 63 < year cal frm v 0 then (.error .overflow : Except Err (Nat × I))
      else .ok (year cal frm v 0, cal.add frm (toInt64 (year cal frm v 0))))
    = .ok (year cal frm v 0, cal.add frm (toInt64 (year cal frm v 0)))
  rw [if_neg hout]

theorem afterDigits_done {I : Type} (cal : Calendar I) (d : Nat) (inT : Bool)
    (frm frm1 : I) (v w : Nat) (ch : Char) (rest : List Char)
    (hch : ¬(ch = '.' ∨ ('0' ≤ ch ∧ ch ≤ '9') ∨ ch = 'T'))
    (hrest : unitStop rest)
    (hres : resolveUnit cal inT frm [ch] v 0 = .ok (w, frm1))
    (hw : w ≤ 2 ^ 63) (hacc : d + w ≤ 2 ^ 63) :
    afterDigits cal d inT frm v 0 1 (ch :: rest) = .ok (d + w, inT, frm1, rest) := by
  have hu1 : unitLen (ch :: rest) = 1 := unitLen_one ch rest hch hrest
  simp only [afterDigits, hu1]
  rw [if_neg (by norm_num : ¬(1 : Nat) = 0)]
  simp only [List.take_succ_cons, List.take_zero, List.drop_succ_cons, List.drop_zero, hres]
  rw [if_neg (by norm_num : ¬(0 : Nat) < 0),
    if_neg (by rw [sub64_small w hw]; omega), add64_small d w hacc]

theorem afterDigits_frac {I : Type} (cal : Calendar I) (d : Nat) (inT : Bool)
    (frm frm1 frm2 : I) (v f sc w1 w2 : Nat) (ch : Char) (rest : List Char)
    (hch : ¬(ch = '.' ∨ ('0' ≤ ch ∧ ch ≤ '9') ∨ ch = 'T'))
    (hrest : unitStop rest)
    (hres1 : resolveUnit cal inT frm [ch] v 0 = .ok (w1, frm1))
    (hres2 : resolveUnit cal inT frm1 [ch] f sc = .ok (w2, frm2))
    (hf : 0 < f) (hw : w1 + w2 ≤ 2 ^ 63) (hacc : d + (w1 + w2) ≤ 2 ^ 63) :
    afterDigits cal d inT frm v f sc (ch :: rest)
      = .ok (d + (w1 + w2), inT, frm2, rest) := by
  have hu1 : unitLen (ch :: rest) = 1 := unitLen_one ch rest hch hrest
  simp only [afterDigits, hu1]
  rw [if_neg (by norm_num : ¬(1 : Nat) = 0)]
  simp only [List.take_succ_cons, List.take_zero, List.drop_succ_cons, List.drop_zero,
    hres1, hres2]
  rw [if_pos hf]
  rw [add64_small w1 w2 (by omega)]
  rw [if_neg (by rw [sub64_small (w1 + w2) hw]; omega), add64_small d (w1 + w2) hacc]

theorem nonDigitStart_cons (ch : Char) (rest : List Char)
    (h : isDigitCh ch = false) : nonDigitStart (ch :: rest) := by
  intro c hc
  simp only [List.head?_cons, Option.some.injEq] at hc
  exact hc ▸ h

theorem stopChar_not_digit (ch : Char)
    (hch : ¬(ch = '.' ∨ ('0' ≤ ch ∧ ch ≤ '9') ∨ ch = 'T')) :
    isDigitCh ch = false := by
  have h2 : ¬('0' ≤ ch ∧ ch ≤ '9') := fun hd => hch (Or.inr (Or.inl hd))
  exact decide_eq_false h2

theorem leadingInt_digits_rest (v : Nat) (rest : List Char) (hv : v ≤ 2 ^ 63)
    (hrest : nonDigitStart rest) :
    leadingInt (fmtInt v [] ++ rest) = .ok (v, rest) := by
  have hval : charsVal (fmtInt v []) = v :=
    fmtInt_val v (lt_of_le_of_lt hv (by norm_num))
  rw [leadingInt]
  rw [leadingIntAux_spec (fmtInt v []) 0 rest (fmtInt_digits v) hrest
    (by rw [charsVal_def, hval]; exact hv)]
  rw [charsVal_def, hval]

theorem stepTok_int {I : Type} (cal : Calendar I) (d : Nat) (inT : Bool)
    (frm frm1 : I) (v w : Nat) (ch : Char) (rest : List Char)
    (hch : ¬(ch = '.' ∨ ('0' ≤ ch ∧ ch ≤ '9') ∨ ch = 'T'))
    (hrest : unitStop rest)
    (hv : v ≤ 2 ^ 63)
    (hres : resolveUnit cal inT frm [ch] v 0 = .ok (w, frm1))
    (hw : w ≤ 2 ^ 63) (hacc : d + w ≤ 2 ^ 63) :
    stepTok cal d inT frm (fmtInt v [] ++ ch :: rest) = .ok (d + w, inT, frm1, rest) := by
  have hli : leadingInt (fmtInt v [] ++ ch :: rest) = .ok (v, ch :: rest) :=
    leadingInt_digits_rest v (ch :: rest) hv
      (nonDigitStart_cons ch rest (stopChar_not_digit ch hch))
  obtain ⟨c1, t1, hds⟩ := List.exists_cons_of_ne_nil (fmtInt_ne_nil v)
  have hc1 : isDigitCh c1 = true := fmtInt_digits v c1 (by rw [hds]; exact List.mem_cons_self _ _)
  rw [hds, List.cons_append] at hli ⊢
  simp only [stepTok, hli]
  rw [if_neg (not_not_intro (Or.inr ((isDigitCh_true_iff c1).1 hc1)))]
  rw [if_neg (show ¬(ch :: rest).head? = some '.' by
    simp only [List.head?_cons, Option.some.injEq]
    exact fun h => hch (Or.inl h))]
  rw [if_neg (show ¬(ch :: rest).length = (c1 :: (t1 ++ ch :: rest)).length by
    simp only [List.length_cons, List.length_append]
    omega)]
  exact afterDigits_done cal d inT frm frm1 v w ch rest hch hrest hres hw hacc

theorem stepTok_frac {I : Type} (cal : Calendar I) (d : Nat) (inT : Bool)
    (frm frm1 frm2 : I) (v f w1 w2 : Nat) (fds : List Char) (ch : Char)
    (rest : List Char)
    (hch : ¬(ch = '.' ∨ ('0' ≤ ch ∧ ch ≤ '9') ∨ ch = 'T'))
    (hrest : unitStop rest)
    (hv : v ≤ 2 ^ 63)
    (hfds : ∀ c ∈ fds, isDigitCh c = true)
    (hfval : charsVal fds = f)
    (hfbound : f ≤ (2 ^ 63 - 1) / 10)
    (hfpos : 0 < f)
    (hres1 : resolveUnit cal inT frm [ch] v 0 = .ok (w1, frm1))
    (hres2 : resolveUnit cal inT frm1 [ch] f (10 ^ fds.length) = .ok (w2, frm2))
    (hw : w1 + w2 ≤ 2 ^ 63) (hacc : d + (w1 + w2) ≤ 2 ^ 63) :
    stepTok cal d inT frm (fmtInt v [] ++ '.' :: (fds ++ ch :: rest))
      = .ok (d + (w1 + w2), inT, frm2, rest) := by
  have hli : leadingInt (fmtInt v [] ++ '.' :: (fds ++ ch :: rest))
      = .ok (v, '.' :: (fds ++ ch :: rest)) :=
    leadingInt_digits_rest v ('.' :: (fds ++ ch :: rest)) hv
      (nonDigitStart_cons _ _ (by decide))
  have hlf : leadingFraction (fds ++ ch :: rest) = (f, 10 ^ fds.length, ch :: rest) := by
    rw [leadingFraction]
    rw [leadingFractionAux_spec fds 0 1 (ch :: rest) hfds
      (nonDigitStart_cons ch rest (stopChar_not_digit ch hch))
      (by rw [charsVal_def, hfval]; exact hfbound)]
    rw [charsVal_def, hfval, one_mul]
  obtain ⟨c1, t1, hds⟩ := List.exists_cons_of_ne_nil (fmtInt_ne_nil v)
  have hc1 : isDigitCh c1 = true := fmtInt_digits v c1 (by rw [hds]; exact List.mem_cons_self _ _)
  rw [hds, List.cons_append] at hli ⊢
  simp only [stepTok, hli]
  rw [if_neg (not_not_intro (Or.inr ((isDigitCh_true_iff c1).1 hc1)))]
  rw [if_pos (show ('.' :: (fds ++ ch :: rest)).head? = some '.' from rfl)]
  simp only [List.tail_cons, hlf]
  rw [if_neg (show ¬(('.' :: (fds ++ ch :: rest)).length = (c1 :: (t1 ++ '.' :: (fds ++ ch :: rest))).length
      ∧ (ch :: rest).length = (fds ++ ch :: rest).length) by
    intro hcon
    have := hcon.1
    simp only [List.length_cons, List.length_append] at this
    omega)]
  exact afterDigits_frac cal d inT frm frm1 frm2 v f (10 ^ fds.length) w1 w2 ch rest
    hch hrest hres1 hres2 hfpos hw hacc

theorem stepOnce_noT {I : Type} (cal : Calendar I) (d : Nat) (inT : Bool)
    (frm : I) (c : Char) (cs : List Char) (h : c ≠ 'T') :
    stepOnce cal d inT frm (c :: cs) = stepTok cal d inT frm (c :: cs) := by
  simp [stepOnce, h]

theorem stepOnce_T {I : Type} (cal : Calendar I) (d : Nat) (inT : Bool)
    (frm : I) (cs : List Char) :
    stepOnce cal d inT frm ('T' :: cs) = stepTok cal d true frm cs := by
  simp [stepOnce]

theorem runP_T {I : Type} (cal : Calendar I) (d : Nat) (frm : I) (inT : Bool)
    (c : Char) (cs : List Char) (hc : isDigitCh c = true) :
    runP cal d inT frm ('T' :: c :: cs) = runP cal d true frm (c :: cs) := by
  have hcT : c ≠ 'T' := by
    intro h
    rw [h] at hc
    exact absurd hc (by decide)
  show durLoop cal ('T' :: c :: cs).length d inT frm ('T' :: c :: cs)
    = durLoop cal ((c :: cs).length) d true frm (c :: cs)
  rw [show ('T' :: c :: cs).length = (c :: cs).length + 1 from rfl, durLoop_cons, stepOnce_T]
  rw [show ((c :: cs).length) = cs.length + 1 from rfl, durLoop_cons, stepOnce_noT cal d true frm c cs hcT]
  rcases hst : stepTok cal d true frm (c :: cs) with e | q
  · rfl
  · rcases q with ⟨d1, t1, f1, s1⟩
    have hlen := stepTok_len cal d true frm (c :: cs) (d1, t1, f1, s1) hst
    simp only [List.length_cons] at hlen
    exact durLoop_fuel cal (cs.length + 1) cs.length d1 t1 f1 s1 (by omega) (by omega)

theorem NSecond_eq : NSecond = 1000000000 := rfl

theorem NMinute_eq : NMinute = 60000000000 := rfl

theorem NHour_eq : NHour = 3600000000000 := rfl

theorem NDay_eq : NDay = 86400000000000 := rfl

theorem nsOf_eq (u : Nat) : nsOf u = u % 1000000000 := by unfold nsOf; norm_num

theorem secOf_eq (u : Nat) : secOf u = u / 1000000000 % 60 := by unfold secOf; norm_num

theorem minOf_eq (u : Nat) : minOf u = u / 1000000000 / 60 % 60 := by unfold minOf; norm_num

theorem hrOf_eq (u : Nat) : hrOf u = u / 1000000000 / 60 / 60 % 24 := by unfold hrOf; norm_num

theorem dayOf_eq (u : Nat) : dayOf u = u / 1000000000 / 60 / 60 / 24 := by unfold dayOf; norm_num

theorem runP_tok_int {I : Type} (cal : Calendar I) (d : Nat) (inT : Bool)
    (frm frm1 : I) (v w : Nat) (ch : Char) (rest : List Char)
    (hch : ¬(ch = '.' ∨ ('0' ≤ ch ∧ ch ≤ '9') ∨ ch = 'T'))
    (hrest : unitStop rest)
    (hv : v ≤ 2 ^ 63)
    (hres : resolveUnit cal inT frm [ch] v 0 = .ok (w, frm1))
    (hw : w ≤ 2 ^ 63) (hacc : d + w ≤ 2 ^ 63) :
    runP cal d inT frm (fmtInt v [] ++ ch :: rest) = runP cal (d + w) inT frm1 rest := by
  have hstep := stepTok_int cal d inT frm frm1 v w ch rest hch hrest hv hres hw hacc
  obtain ⟨c1, t1, hds⟩ := List.exists_cons_of_ne_nil (fmtInt_ne_nil v)
  have hc1 : isDigitCh c1 = true := fmtInt_digits v c1 (by rw [hds]; exact List.mem_cons_self _ _)
  have hT : c1 ≠ 'T' := by
    intro h
    rw [h] at hc1
    exact absurd hc1 (by decide)
  rw [hds, List.cons_append] at hstep ⊢
  exact runP_step cal d inT frm _ _ _ _ _
    (by rw [stepOnce_noT cal d inT frm c1 _ hT]; exact hstep)

theorem runP_tok_frac {I : Type} (cal : Calendar I) (d : Nat) (inT : Bool)
    (frm frm1 frm2 : I) (v f w1 w2 : Nat) (fds : List Char) (ch : Char)
    (rest : List Char)
    (hch : ¬(ch = '.' ∨ ('0' ≤ ch ∧ ch ≤ '9') ∨ ch = 'T'))
    (hrest : unitStop rest)
    (hv : v ≤ 2 ^ 63)
    (hfds : ∀ c ∈ fds, isDigitCh c = true)
    (hfval : charsVal fds = f)
    (hfbound : f ≤ (2 ^ 63 - 1) / 10)
    (hfpos : 0 < f)
    (hres1 : resolveUnit cal inT frm [ch] v 0 = .ok (w1, frm1))
    (hres2 : resolveUnit cal inT frm1 [ch] f (10 ^ fds.length) = .ok (w2, frm2))
    (hw : w1 + w2 ≤ 2 ^ 63) (hacc : d + (w1 + w2) ≤ 2 ^ 63) :
    runP cal d inT frm (fmtInt v [] ++ '.' :: (fds ++ ch :: rest))
      = runP cal (d + (w1 + w2)) inT frm2 rest := by
  have hstep := stepTok_frac cal d inT frm frm1 frm2 v f w1 w2 fds ch rest
    hch hrest hv hfds hfval hfbound hfpos hres1 hres2 hw hacc
  obtain ⟨c1, t1, hds⟩ := List.exists_cons_of_ne_nil (fmtInt_ne_nil v)
  have hc1 : isDigitCh c1 = true := fmtInt_digits v c1 (by rw [hds]; exact List.mem_cons_self _ _)
  have hT : c1 ≠ 'T' := by
    intro h
    rw [h] at hc1
    exact absurd hc1 (by decide)
  rw [hds, List.cons_append] at hstep ⊢
  exact runP_step cal d inT frm _ _ _ _ _
    (by rw [stepOnce_noT cal d inT frm c1 _ hT]; exact hstep)

theorem unitStop_nil : unitStop ([] : List Char) := by
  intro c hc
  simp at hc

theorem unitStop_digit_cons (c : Char) (l : List Char) (hc : isDigitCh c = true) :
    unitStop (c :: l) := by
  intro c2 hc2
  simp only [List.head?_cons, Option.some.injEq] at hc2
  exact Or.inr (Or.inl (hc2 ▸ (isDigitCh_true_iff c).1 hc))

theorem unitStop_fmtInt (v : Nat) (l : List Char) : unitStop (fmtInt v [] ++ l) := by
  obtain ⟨c1, t1, hds⟩ := List.exists_cons_of_ne_nil (fmtInt_ne_nil v)
  have hc1 : isDigitCh c1 = true := fmtInt_digits v c1 (by rw [hds]; exact List.mem_cons_self _ _)
  rw [hds, List.cons_append]
  exact unitStop_digit_cons c1 _ hc1

theorem unitStop_sPartOf (u : Nat) : unitStop (sPartOf u) := by
  unfold sPartOf
  by_cases hz : secOf u = 0 ∧ nsOf u = 0
  · rw [if_pos hz]
    exact unitStop_nil
  · rw [if_neg hz, List.append_assoc]
    exact unitStop_fmtInt _ _

theorem unitStop_mPartOf_append (u : Nat) (l : List Char) (hl : unitStop l) :
    unitStop (mPartOf u ++ l) := by
  unfold mPartOf
  by_cases hm : minOf u = 0
  · rw [if_pos hm, List.nil_append]
    exact hl
  · rw [if_neg hm, List.append_assoc]
    exact unitStop_fmtInt _ _

theorem runS (u : Nat) {I : Type} (cal : Calendar I) (d : Nat) (frm : I)
    (hacc : d + (secOf u * NSecond + nsOf u) ≤ 2 ^ 63) :
    runP cal d true frm (sPartOf u) = .ok (d + (secOf u * NSecond + nsOf u)) := by
  have hsec_lt : secOf u < 60 := Nat.mod_lt _ (by norm_num)
  have hns_lt2 : nsOf u < 1000000000 := by rw [nsOf_eq]; omega
  have hsecw : secOf u * NSecond ≤ 59000000000 := by
    have h1 : secOf u * NSecond ≤ 59 * NSecond := Nat.mul_le_mul_right NSecond (by omega)
    rw [NSecond_eq] at h1 ⊢
    omega
  unfold sPartOf
  by_cases hz : secOf u = 0 ∧ nsOf u = 0
  · rw [if_pos hz, runP_nil, hz.1, hz.2, Nat.zero_mul, Nat.zero_add, Nat.add_zero]
  · rw [if_neg hz]
    by_cases hns : nsOf u = 0
    · have hacc2 : d + secOf u * NSecond ≤ 2 ^ 63 := by
        rw [hns, Nat.add_zero] at hacc
        exact hacc
      rw [if_pos hns, List.append_nil,
        show (['S'] : List Char) = 'S' :: [] from rfl,
        runP_tok_int cal d true frm frm (secOf u) (secOf u * NSecond) 'S' []
          (by decide) unitStop_nil (by omega)
          (resolve_time_int cal frm ['S'] NSecond (secOf u) rfl (by rw [NSecond_eq]; omega))
          (le_trans hsecw (by norm_num)) hacc2,
        runP_nil, hns, Nat.add_zero]
    · rw [if_neg hns, List.append_assoc, List.cons_append]
      have hns9 : u % 10 ^ 9 ≠ 0 := by
        unfold nsOf at hns
        exact hns
      have hk : (stripChars 9 u).length ≤ 9 := stripChars_len 9 u
      have hval : charsVal (stripChars 9 u) * 10 ^ (9 - (stripChars 9 u).length) = nsOf u :=
        stripChars_val 9 u
      have hfpos : 0 < charsVal (stripChars 9 u) :=
        Nat.pos_of_ne_zero (stripChars_val_ne_zero 9 u hns9)
      have hNS10 : NSecond = 10 ^ 9 := by rw [NSecond_eq]; norm_num
      have hw2 : charsVal (stripChars 9 u) * NSecond / 10 ^ (stripChars 9 u).length = nsOf u := by
        have h9 : (10 : Nat) ^ 9
            = 10 ^ (9 - (stripChars 9 u).length) * 10 ^ (stripChars 9 u).length := by
          rw [← pow_add]
          congr 1
          omega
        calc charsVal (stripChars 9 u) * NSecond / 10 ^ (stripChars 9 u).length
            = charsVal (stripChars 9 u)
                * (10 ^ (9 - (stripChars 9 u).length) * 10 ^ (stripChars 9 u).length)
                / 10 ^ (stripChars 9 u).length := by rw [hNS10, h9]
          _ = charsVal (stripChars 9 u) * 10 ^ (9 - (stripChars 9 u).length)
                * 10 ^ (stripChars 9 u).length / 10 ^ (stripChars 9 u).length := by
              rw [Nat.mul_assoc]
          _ = charsVal (stripChars 9 u) * 10 ^ (9 - (stripChars 9 u).length) :=
              Nat.mul_div_cancel _ (pow_pos (by norm_num) _)
          _ = nsOf u := hval
      have hfle : charsVal (stripChars 9 u) ≤ nsOf u := by
        calc charsVal (stripChars 9 u)
            ≤ charsVal (stripChars 9 u) * 10 ^ (9 - (stripChars 9 u).length) :=
              Nat.le_mul_of_pos_right _ (pow_pos (by norm_num) _)
          _ = nsOf u := hval
      have hXle : secOf u * NSecond + nsOf u ≤ 2 ^ 63 := le_trans (Nat.le_add_left _ d) hacc
      rw [runP_tok_frac cal d true frm frm frm (secOf u) (charsVal (stripChars 9 u))
        (secOf u * NSecond) (nsOf u) (stripChars 9 u) 'S' []
        (by decide) unitStop_nil (by omega)
        (stripChars_digits 9 u) rfl
        (by omega)
        hfpos
        (resolve_time_int cal frm ['S'] NSecond (secOf u) rfl (by rw [NSecond_eq]; omega))
        (by rw [resolve_time_frac cal frm ['S'] NSecond (charsVal (stripChars 9 u))
          (stripChars 9 u).length rfl (by rw [hw2]; omega), hw2])
        hXle hacc, runP_nil]

theorem runMS (u : Nat) {I : Type} (cal : Calendar I) (d : Nat) (frm : I)
    (hacc : d + (minOf u * NMinute + (secOf u * NSecond + nsOf u)) ≤ 2 ^ 63) :
    runP cal d true frm (mPartOf u ++ sPartOf u)
      = .ok (d + (minOf u * NMinute + (secOf u * NSecond + nsOf u))) := by
  have hmin_lt : minOf u < 60 := Nat.mod_lt _ (by norm_num)
  by_cases hm : minOf u = 0
  · unfold mPartOf
    rw [if_pos hm, List.nil_append, hm, Nat.zero_mul, Nat.zero_add]
    exact runS u cal d frm (by rw [hm, Nat.zero_mul, Nat.zero_add] at hacc; exact hacc)
  · have hminw : minOf u * NMinute ≤ 3540000000000 := by
      have hb : minOf u * NMinute ≤ 59 * NMinute := Nat.mul_le_mul_right NMinute (by omega)
      rw [NMinute_eq] at hb ⊢
      omega
    unfold mPartOf
    rw [if_neg hm, List.append_assoc, List.singleton_append]
    rw [runP_tok_int cal d true frm frm (minOf u) (minOf u * NMinute) 'M' (sPartOf u)
      (by decide) (unitStop_sPartOf u) (by omega)
      (resolve_time_int cal frm ['M'] NMinute (minOf u) rfl (by rw [NMinute_eq]; omega))
      (le_trans hminw (by norm_num)) (by omega)]
    rw [← Nat.add_assoc]
    exact runS u cal (d + minOf u * NMinute) frm (by omega)

theorem runHMS (u : Nat) {I : Type} (cal : Calendar I) (d : Nat) (frm : I)
    (hacc : d + (hrOf u * NHour + (minOf u * NMinute + (secOf u * NSecond + nsOf u))) ≤ 2 ^ 63) :
    runP cal d true frm (hPartOf u ++ mPartOf u ++ sPartOf u)
      = .ok (d + (hrOf u * NHour + (minOf u * NMinute + (secOf u * NSecond + nsOf u)))) := by
  have hhr_lt : hrOf u < 24 := Nat.mod_lt _ (by norm_num)
  by_cases hh : hrOf u = 0
  · unfold hPartOf
    rw [if_pos hh, List.nil_append, hh, Nat.zero_mul, Nat.zero_add]
    exact runMS u cal d frm (by rw [hh, Nat.zero_mul, Nat.zero_add] at hacc; exact hacc)
  · have hhw : hrOf u * NHour ≤ 82800000000000 := by
      have hb : hrOf u * NHour ≤ 23 * NHour := Nat.mul_le_mul_right NHour (by omega)
      rw [NHour_eq] at hb ⊢
      omega
    unfold hPartOf
    rw [if_neg hh, List.append_assoc, List.append_assoc, List.singleton_append]
    rw [runP_tok_int cal d true frm frm (hrOf u) (hrOf u * NHour) 'H'
      (mPartOf u ++ sPartOf u)
      (by decide) (unitStop_mPartOf_append u _ (unitStop_sPartOf u)) (by omega)
      (resolve_time_int cal frm ['H'] NHour (hrOf u) rfl (by rw [NHour_eq]; omega))
      (le_trans hhw (by norm_num)) (by omega)]
    rw [← Nat.add_assoc]
    exact runMS u cal (d + hrOf u * NHour) frm (by omega)

theorem digitStart_nil : digitStart [] := by
  intro c hc
  simp at hc

theorem digitStart_append (l1 l2 : List Char) (h1 : digitStart l1)
    (h2 : digitStart l2) : digitStart (l1 ++ l2) := by
  match l1 with
  | [] => exact h2
  | c :: t =>
    intro c2 hc2
    simp only [List.cons_append, List.head?_cons, Option.some.injEq] at hc2
    exact hc2 ▸ h1 c rfl

theorem digitStart_fmtInt (v : Nat) (l : List Char) : digitStart (fmtInt v [] ++ l) := by
  obtain ⟨c1, t1, hds⟩ := List.exists_cons_of_ne_nil (fmtInt_ne_nil v)
  have hc1 : isDigitCh c1 = true := fmtInt_digits v c1 (by rw [hds]; exact List.mem_cons_self _ _)
  rw [hds, List.cons_append]
  intro c2 hc2
  simp only [List.head?_cons, Option.some.injEq] at hc2
  exact hc2 ▸ hc1

theorem digitStart_sPartOf (u : Nat) : digitStart (sPartOf u) := by
  unfold sPartOf
  by_cases hz : secOf u = 0 ∧ nsOf u = 0
  · rw [if_pos hz]
    exact digitStart_nil
  · rw [if_neg hz, List.append_assoc]
    exact digitStart_fmtInt _ _

theorem digitStart_mPartOf (u : Nat) : digitStart (mPartOf u) := by
  unfold mPartOf
  by_cases hm : minOf u = 0
  · rw [if_pos hm]
    exact digitStart_nil
  · rw [if_neg hm]
    exact digitStart_fmtInt _ _

theorem digitStart_hPartOf (u : Nat) : digitStart (hPartOf u) := by
  unfold hPartOf
  by_cases hh : hrOf u = 0
  · rw [if_pos hh]
    exact digitStart_nil
  · rw [if_neg hh]
    exact digitStart_fmtInt _ _

theorem digitStart_timePartOf (u : Nat) : digitStart (timePartOf u) := by
  unfold timePartOf
  exact digitStart_append _ _
    (digitStart_append _ _ (digitStart_hPartOf u) (digitStart_mPartOf u))
    (digitStart_sPartOf u)

theorem runT (u : Nat) {I : Type} (cal : Calendar I) (d : Nat) (frm : I)
    (hacc : d + (hrOf u * NHour + (minOf u * NMinute + (secOf u * NSecond + nsOf u))) ≤ 2 ^ 63) :
    runP cal d false frm (if timePartOf u = [] then [] else 'T' :: timePartOf u)
      = .ok (d + (hrOf u * NHour + (minOf u * NMinute + (secOf u * NSecond + nsOf u)))) := by
  by_cases ht : timePartOf u = []
  · rw [if_pos ht, runP_nil]
    have ht2 := ht
    unfold timePartOf at ht2
    obtain ⟨hhm, hsp⟩ := List.append_eq_nil.1 ht2
    obtain ⟨hhp, hmp⟩ := List.append_eq_nil.1 hhm
    have hh : hrOf u = 0 := by
      by_contra hne
      unfold hPartOf at hhp
      rw [if_neg hne] at hhp
      exact absurd (List.append_eq_nil.1 hhp).2 (by simp)
    have hm : minOf u = 0 := by
      by_contra hne
      unfold mPartOf at hmp
      rw [if_neg hne] at hmp
      exact absurd (List.append_eq_nil.1 hmp).2 (by simp)
    have hsz : secOf u = 0 ∧ nsOf u = 0 := by
      by_contra hne
      unfold sPartOf at hsp
      rw [if_neg hne] at hsp
      exact absurd (List.append_eq_nil.1 hsp).2 (by simp)
    rw [hh, hm, hsz.1, hsz.2]
    norm_num
  · rw [if_neg ht]
    obtain ⟨c0, t0, htp⟩ := List.exists_cons_of_ne_nil ht
    have hc0 : isDigitCh c0 = true := digitStart_timePartOf u c0 (by rw [htp]; rfl)
    rw [htp, runP_T cal d frm false c0 t0 hc0, ← htp]
    exact runHMS u cal d frm hacc

theorem runP_format (u : Nat) {I : Type} (cal : Calendar I) (frm : I)
    (hu : u ≤ 2 ^ 63) :
    runP cal 0 false frm (formatMag u) = .ok u := by
  have hU : nsOf u + secOf u * NSecond + minOf u * NMinute + hrOf u * NHour
      + dayOf u * NDay = u := by
    rw [nsOf_eq, secOf_eq, minOf_eq, hrOf_eq, dayOf_eq, NSecond_eq, NMinute_eq,
      NHour_eq, NDay_eq]
    omega
  rw [formatMag_eq]
  by_cases hd : dayOf u = 0
  · unfold dPartOf
    rw [if_pos hd, List.nil_append]
    have hrem : hrOf u * NHour + (minOf u * NMinute + (secOf u * NSecond + nsOf u)) = u := by
      rw [hd, Nat.zero_mul, Nat.add_zero] at hU
      omega
    rw [runT u cal 0 frm (by omega), Nat.zero_add, hrem]
  · have hdw : dayOf u * NDay ≤ u := by
      have hq : dayOf u * NDay = u / 1000000000 / 60 / 60 / 24 * 86400000000000 := by
        rw [dayOf_eq, NDay_eq]
      rw [hq]
      omega
    have hstopT : unitStop (if timePartOf u = [] then [] else 'T' :: timePartOf u) := by
      by_cases ht : timePartOf u = []
      · rw [if_pos ht]
        exact unitStop_nil
      · rw [if_neg ht]
        intro c hc
        simp only [List.head?_cons, Option.some.injEq] at hc
        exact Or.inr (Or.inr hc.symm)
    have hdbound : ¬2 ^ 63 / NDay < dayOf u := by
      rw [NDay_eq, dayOf_eq]
      omega
    have hdu : dayOf u ≤ 2 ^ 63 := by
      rw [dayOf_eq]
      omega
    unfold dPartOf
    rw [if_neg hd, List.append_assoc, List.singleton_append]
    rw [runP_tok_int cal 0 false frm frm (dayOf u) (dayOf u * NDay) 'D'
      (if timePartOf u = [] then [] else 'T' :: timePartOf u)
      (by decide) hstopT hdu
      (resolve_date_int cal frm (dayOf u) hdbound)
      (by omega) (by omega)]
    rw [runT u cal (0 + dayOf u * NDay) frm (by omega)]
    have hfin : 0 + dayOf u * NDay
        + (hrOf u * NHour + (minOf u * NMinute + (secOf u * NSecond + nsOf u))) = u := by
      omega
    rw [hfin]

theorem neg64_eq (u : Nat) (h1 : 1 ≤ u) (h2 : u ≤ 2 ^ 63) :
    toInt64 ((2 ^ 64 - u % 2 ^ 64) % 2 ^ 64) = -(u : Int) := by
  have hu : u % 2 ^ 64 = u := Nat.mod_eq_of_lt (by omega)
  rw [hu, Nat.mod_eq_of_lt (show 2 ^ 64 - u < 2 ^ 64 by omega)]
  unfold toInt64
  rw [Nat.mod_eq_of_lt (show 2 ^ 64 - u < 2 ^ 64 by omega)]
  rw [if_neg (show ¬2 ^ 64 - u < 2 ^ 63 by omega)]
  have hc : ((2 ^ 64 - u : Nat) : Int) = 2 ^ 64 - (u : Int) := by
    rw [Nat.cast_sub (show u ≤ 2 ^ 64 by omega)]
    norm_num
  rw [hc]
  ring

theorem ParseDuration_data {I : Type} (cal : Calendar I) (frm : I) (s : String) :
    ParseDuration cal frm s = parseDurationL cal frm s.data := rfl

theorem parseDurationL_unfold {I : Type} (cal : Calendar I) (frm : I)
    (s : List Char) :
    parseDurationL cal frm s
      = (match parseAfterSign cal frm (stripSign s).2 with
        | Except.error e => Except.error e
        | Except.ok d =>
          if (stripSign s).1 then .ok (toInt64 ((2 ^ 64 - d % 2 ^ 64) % 2 ^ 64))
          else if 2 ^ 63 - 1 < d then .error .overflow
          else .ok (d : Int)) := rfl

theorem parseAfterSign_format (u : Nat) {I : Type} (cal : Calendar I) (frm : I)
    (hu : u ≤ 2 ^ 63) :
    parseAfterSign cal frm ('P' :: formatMag u) = .ok u := by
  show durLoop cal (formatMag u).length 0 false frm (formatMag u) = .ok u
  exact runP_format u cal frm hu

/-- Claim C4: parsing the formatter's output returns the original tick
count, for every signed 64-bit value, with no error.  The formatter emits
only day/hour/minute/second tokens, so the calendar is never consulted and
the result holds for every reference instant. -/
theorem c4_round_trip {I : Type} (cal : Calendar I) (frm : I) (t : Int)
    (h1 : -(2 ^ 63) ≤ t) (h2 : t < 2 ^ 63) :
    ParseDuration cal frm (FormatDuration t) = .ok t := by
  by_cases h0 : t = 0
  · rw [h0]
    rfl
  · have hu : t.natAbs ≤ 2 ^ 63 := by omega
    have hpas := parseAfterSign_format t.natAbs cal frm hu
    rcases lt_trichotomy t 0 with hneg | hzero | hpos
    · have hda : (FormatDuration t).data = '-' :: 'P' :: formatMag t.natAbs := by
        unfold FormatDuration
        rw [if_neg h0, if_pos hneg]
        rfl
      rw [ParseDuration_data, hda, parseDurationL_unfold]
      simp only [show (stripSign ('-' :: 'P' :: formatMag t.natAbs)).2
          = 'P' :: formatMag t.natAbs from rfl,
        show (stripSign ('-' :: 'P' :: formatMag t.natAbs)).1 = true from rfl,
        hpas, if_true]
      rw [neg64_eq t.natAbs (by omega) hu]
      rw [Int.ofNat_natAbs_of_nonpos (le_of_lt hneg), neg_neg]
    · exact absurd hzero h0
    · have hda : (FormatDuration t).data = 'P' :: formatMag t.natAbs := by
        unfold FormatDuration
        rw [if_neg h0, if_neg (by omega : ¬t < 0)]
        rfl
      rw [ParseDuration_data, hda, parseDurationL_unfold]
      simp only [show (stripSign ('P' :: formatMag t.natAbs)).2
          = 'P' :: formatMag t.natAbs from rfl,
        show (stripSign ('P' :: formatMag t.natAbs)).1 = false from rfl,
        hpas, Bool.false_eq_true, if_false]
      rw [if_neg (show ¬2 ^ 63 - 1 < t.natAbs by omega)]
      rw [Int.natAbs_of_nonneg (le_of_lt hpos)]

/-- Witness for C4 at a value exercising sign, days, hours, minutes,
seconds and a fractional part: -(1 day + 1 hour + 1 minute + 1.000000001
seconds). -/
theorem c4_round_trip_witness :
    ParseDuration calUnit () (FormatDuration (-90061000000001)) = .ok (-90061000000001) :=
  c4_round_trip calUnit () (-90061000000001) (by decide) (by decide)

/-- Claim C2 as amended: for every nonzero duration the output is the
optional sign, `P`, the day token when days are nonzero, and — exactly when
some time token is present — `T` followed by the hour token (iff hours are
nonzero), the minute token (iff minutes are nonzero) and the seconds token,
which is rendered iff the seconds value or the sub-second fraction is
nonzero (not unconditionally, as originally claimed). -/
theorem c2_format_structure (t : Int) (h0 : t ≠ 0) :
    FormatDuration t = ⟨(if t < 0 then ['-'] else []) ++ 'P' ::
      (dPartOf t.natAbs
        ++ (if timePartOf t.natAbs = [] then [] else 'T' :: timePartOf t.natAbs))⟩ := by
  unfold FormatDuration
  rw [if_neg h0, formatMag_eq]

/-- Witness for C2 at one hour: the day part is empty, the time part is the
bare hour token, and no seconds token is rendered. -/
theorem c2_format_structure_witness : FormatDuration 3600000000000 = "PT1H" := by
  have h := c2_format_structure 3600000000000 (by decide)
  rw [h]
  rfl

theorem neg64_all (u : Nat) (h2 : u ≤ 2 ^ 63) :
    toInt64 ((2 ^ 64 - u % 2 ^ 64) % 2 ^ 64) = -(u : Int) := by
  by_cases h0 : u = 0
  · subst h0
    rfl
  · exact neg64_eq u (by omega) h2

/-- Claim C6 as amended: the formatter identity `format(-t) = "-" ++
format(t)` holds for positive `t` (for negative `t` the two sides differ —
see the counterexample), and the parser identity `parse("-" ++ s) =
-parse(s)` holds for every successfully parsing `s` that does not itself
begin with a sign (prefixing `-` to a string that already starts with `-`
or `+` yields a malformed string instead). -/
theorem c6_sign_symmetry :
    (∀ t : Int, 0 < t → t < 2 ^ 63 → FormatDuration (-t) = "-" ++ FormatDuration t) ∧
    (∀ (I : Type) (cal : Calendar I) (frm : I) (s : String) (v : Int),
      s.data.head? ≠ some '-' → s.data.head? ≠ some '+' →
      ParseDuration cal frm s = .ok v →
      ParseDuration cal frm ("-" ++ s) = .ok (-v)) := by
  constructor
  · intro t ht hlt
    have hneg : -t ≠ 0 := by omega
    have ht0 : t ≠ 0 := by omega
    have hf1 : FormatDuration (-t) = ⟨'-' :: 'P' :: formatMag t.natAbs⟩ := by
      unfold FormatDuration
      rw [if_neg hneg, if_pos (by omega : -t < 0), Int.natAbs_neg]
      rfl
    have hf2 : FormatDuration t = ⟨'P' :: formatMag t.natAbs⟩ := by
      unfold FormatDuration
      rw [if_neg ht0, if_neg (by omega : ¬t < 0)]
      rfl
    rw [hf1, hf2]
    rfl
  · intro I cal frm s v hm hp hok
    match hs : s.data with
    | [] =>
      rw [ParseDuration_data, hs, parseDurationL_unfold] at hok
      simp [stripSign, parseAfterSign] at hok
    | c :: cs =>
      rw [hs] at hm hp
      simp only [List.head?_cons, ne_eq, Option.some.injEq] at hm hp
      have hstrip : stripSign (c :: cs) = (false, c :: cs) := by
        simp only [stripSign]
        rw [if_neg hm, if_neg hp]
      have hsp2 : (stripSign (c :: cs)).2 = c :: cs := by rw [hstrip]
      have hsp1 : (stripSign (c :: cs)).1 = false := by rw [hstrip]
      rw [ParseDuration_data, hs, parseDurationL_unfold, hsp1, hsp2] at hok
      rcases hpa : parseAfterSign cal frm (c :: cs) with e | dd
      · rw [hpa] at hok
        exact absurd hok (by simp)
      · simp only [hpa, Bool.false_eq_true, if_false] at hok
        by_cases hov : 2 ^ 63 - 1 < dd
        · rw [if_pos hov] at hok
          exact absurd hok (by simp)
        · rw [if_neg hov] at hok
          simp only [Except.ok.injEq] at hok
          have hdata : ("-" ++ s).data = '-' :: c :: cs := by
            rw [show ("-" ++ s).data = "-".data ++ s.data from rfl, hs]
            rfl
          rw [ParseDuration_data, hdata, parseDurationL_unfold]
          simp only [show (stripSign ('-' :: c :: cs)).2 = c :: cs from rfl,
            show (stripSign ('-' :: c :: cs)).1 = true from rfl, hpa, if_true]
          rw [neg64_all dd (by omega), hok]

/-- Witness for C6: one day, both directions. -/
theorem c6_sign_symmetry_witness :
    FormatDuration (-(86400000000000 : Int)) = "-" ++ FormatDuration 86400000000000 ∧
    ParseDuration calUnit () ("-" ++ "P1D") = .ok (-86400000000000) :=
  ⟨c6_sign_symmetry.1 86400000000000 (by decide) (by decide),
   c6_sign_symmetry.2 Unit calUnit () "P1D" 86400000000000 (by decide) (by decide)
     (by rfl)⟩

/-- Claim C7: resolving a whole month (or year) token advances the
reference instant by exactly the resolved tick count — the state passed on
for the rest of the input is `cal.add frm out` — so each later calendar
token resolves against the position produced by the previous one.  The
concrete parses demonstrate the effect end to end with a calendar whose
month/year spans grow with the instant: sequential resolution gives
`P1M1M ↦ 30 + 60 = 90` (not 60) and `P1Y1Y ↦ 365 + 730 = 1095` (not
730). -/
theorem c7_sequential_calendar :
    (∀ (I : Type) (cal : Calendar I) (d : Nat) (frm : I) (v : Nat) (rest : List Char),
      unitStop rest → v ≤ 2 ^ 63 →
      ¬2 ^ 63 < month cal frm v 0 → d + month cal frm v 0 ≤ 2 ^ 63 →
      stepTok cal d false frm (fmtInt v [] ++ 'M' :: rest)
        = .ok (d + month cal frm v 0, false,
            cal.add frm (toInt64 (month cal frm v 0)), rest)) ∧
    (∀ (I : Type) (cal : Calendar I) (d : Nat) (frm : I) (v : Nat) (rest : List Char),
      unitStop rest → v ≤ 2 ^ 63 →
      ¬2 ^ 63 < year cal frm v 0 → d + year cal frm v 0 ≤ 2 ^ 63 →
      stepTok cal d false frm (fmtInt v [] ++ 'Y' :: rest)
        = .ok (d + year cal frm v 0, false,
            cal.add frm (toInt64 (year cal frm v 0)), rest)) ∧
    ParseDuration calDemo 0 "P1M1M" = .ok 90 ∧
    ParseDuration calDemo 0 "P1Y1Y" = .ok 1095 := by
  refine ⟨?_, ?_, by rfl, by rfl⟩
  · intro I cal d frm v rest hrest hv hout hacc
    exact stepTok_int cal d false frm _ v (month cal frm v 0) 'M' rest
      (by decide) hrest hv (resolve_month_int cal frm v hout) (by omega) hacc
  · intro I cal d frm v rest hrest hv hout hacc
    exact stepTok_int cal d false frm _ v (year cal frm v 0) 'Y' rest
      (by decide) hrest hv (resolve_year_int cal frm v hout) (by omega) hacc

/-- Witness for C7: one whole month token from instant 0 of the
demonstration calendar resolves to 30 ticks and moves the reference
instant to 30. -/
theorem c7_sequential_calendar_witness :
    stepTok calDemo 0 false 0 (fmtInt 1 [] ++ 'M' :: [])
      = .ok (30, false, (30 : Int), []) :=
  c7_sequential_calendar.1 Int calDemo 0 0 1 [] unitStop_nil (by norm_num)
    (by decide) (by decide)

/-- Claim C10: resolving the fractional part of a month token advances the
reference instant a second time, by the fractional resolved count, on top
of the advance from the whole part — the state passed on is
`cal.add (cal.add frm out0) outf`.  The concrete parse shows a later month
token seeing both advances: with the demonstration calendar,
`P0.5M1M ↦ 15 + (30 + 15) = 60` rather than `15 + 30 = 45`. -/
theorem c10_fractional_advance :
    (∀ (I : Type) (cal : Calendar I) (d : Nat) (frm : I) (v f : Nat)
      (fds : List Char) (rest : List Char),
      unitStop rest → v ≤ 2 ^ 63 →
      (∀ c ∈ fds, isDigitCh c = true) → charsVal fds = f →
      f ≤ (2 ^ 63 - 1) / 10 → 0 < f →
      ¬2 ^ 63 < month cal frm v 0 →
      ¬2 ^ 63 < month cal (cal.add frm (toInt64 (month cal frm v 0))) f (10 ^ fds.length) →
      month cal frm v 0
        + month cal (cal.add frm (toInt64 (month cal frm v 0))) f (10 ^ fds.length)
        ≤ 2 ^ 63 →
      d + (month cal frm v 0
        + month cal (cal.add frm (toInt64 (month cal frm v 0))) f (10 ^ fds.length))
        ≤ 2 ^ 63 →
      stepTok cal d false frm (fmtInt v [] ++ '.' :: (fds ++ 'M' :: rest))
        = .ok (d + (month cal frm v 0
              + month cal (cal.add frm (toInt64 (month cal frm v 0))) f (10 ^ fds.length)),
            false,
            cal.add (cal.add frm (toInt64 (month cal frm v 0)))
              (toInt64 (month cal (cal.add frm (toInt64 (month cal frm v 0))) f
                (10 ^ fds.length))),
            rest)) ∧
    ParseDuration calDemo 0 "P0.5M1M" = .ok 60 := by
  refine ⟨?_, by rfl⟩
  intro I cal d frm v f fds rest hrest hv hfds hfval hfb hfpos hout1 hout2 hw hacc
  exact stepTok_frac cal d false frm _ _ v f (month cal frm v 0)
    (month cal (cal.add frm (toInt64 (month cal frm v 0))) f (10 ^ fds.length))
    fds 'M' rest (by decide) hrest hv hfds hfval hfb hfpos
    (resolve_month_int cal frm v hout1)
    (resolve_month_frac cal (cal.add frm (toInt64 (month cal frm v 0))) f
      (10 ^ fds.length) hout2)
    hw hacc

/-- Witness for C10: the fractional token `0.5M` from instant 0 of the
demonstration calendar resolves its whole part to 0 and its fractional
part to 15, leaving the reference instant at 15. -/
theorem c10_fractional_advance_witness :
    stepTok calDemo 0 false 0 (fmtInt 0 [] ++ '.' :: (['5'] ++ 'M' :: []))
      = .ok (15, false, (15 : Int), []) :=
  c10_fractional_advance.1 Int calDemo 0 0 0 5 ['5'] [] unitStop_nil (by norm_num)
    (by decide) (by decide) (by norm_num) (by norm_num) (by decide) (by decide)
    (by decide) (by decide)

/-- Claim C3 as amended: a unit letter unrecognized by the active table is
rejected with the `MissingUnit` kind, not `UnknownUnit` — the source
declares `ErrUnknownUnit` but never returns it; both the fixed-unit
resolver and the calendar-section resolver fall through to
`ErrMissingUnit`, as the end-to-end parses of `P1X` (date section) and
`PT1D` (time section) show. -/
theorem c3_unknown_unit_kind :
    (∀ (tbl : List Char → Option Nat) (name : List Char) (v sc : Nat),
      tbl name = none → sampleUnit tbl name v sc = .error .missingUnit) ∧
    (∀ (I : Type) (cal : Calendar I) (frm : I) (name : List Char) (v sc : Nat),
      dateUnits name = none → ¬(name = ['M'] ∨ name = ['Y']) →
      durationUnit cal frm name v sc = .error .missingUnit) ∧
    ParseDuration calUnit () "P1X" = .error .missingUnit ∧
    ParseDuration calUnit () "PT1D" = .error .missingUnit := by
  refine ⟨?_, ?_, by rfl, by rfl⟩
  · intro tbl name v sc h
    simp only [sampleUnit, h]
  · intro I cal frm name v sc h1 h2
    simp only [durationUnit, h1]
    rw [if_neg h2]

/-- Witness for C3: `D` is unknown to the time table and `X` to the
date/calendar resolver; both come back as `MissingUnit`. -/
theorem c3_unknown_unit_kind_witness :
    sampleUnit timeUnits ['D'] 1 0 = .error .missingUnit ∧
    durationUnit calUnit () ['X'] 1 0 = .error .missingUnit :=
  ⟨c3_unknown_unit_kind.1 timeUnits ['D'] 1 0 (by rfl),
   c3_unknown_unit_kind.2.1 Unit calUnit () ['X'] 1 0 (by rfl) (by decide)⟩

/-- Claim C8 as amended: a digit run that overflows before unit scaling
makes `leadingInt` return the `ErrLeadingInt` sentinel, but the parser does
not propagate it to the caller: the call site wraps `ErrInvalidDuration`,
so the reported kind is `InvalidFormat`, not a distinct
leading-int-overflow kind. -/
theorem c8_leading_int_overflow :
    (∀ (I : Type) (cal : Calendar I) (d : Nat) (inT : Bool) (frm : I)
      (c : Char) (cs : List Char), ('0' ≤ c ∧ c ≤ '9') →
      leadingInt (c :: cs) = .error .leadingInt →
      stepTok cal d inT frm (c :: cs) = .error .invalidDuration) ∧
    leadingInt "9223372036854775809D".data = .error .leadingInt ∧
    ParseDuration calUnit () "P9223372036854775809D" = .error .invalidDuration := by
  refine ⟨?_, by rfl, by rfl⟩
  intro I cal d inT frm c cs hdig hli
  simp only [stepTok, hli]
  split
  · rfl
  · rfl

/-- Witness for C8: the overflowing digit run of `9223372036854775809D`
surfaces from one parser-loop token step as `InvalidFormat`. -/
theorem c8_leading_int_overflow_witness :
    stepTok calUnit 0 false () ('9' :: "223372036854775809D".data)
      = .error .invalidDuration :=
  c8_leading_int_overflow.1 Unit calUnit 0 false () '9' "223372036854775809D".data
    (by decide) (by rfl)

end iso8601
